import Mathlib

/-!
# A shallow embedding of the `camp` roguelike simulation core

Definitions below translate the Python source of the repository
(`Map.py`, `Actor.py`, `Components.py`, `Controller.py`, `GameEvent.py`)
into executable Lean functions.  Machine integers are modelled as `Int`
(Python integers are unbounded), Python `None` as `Option`, a raised
`IndexError` as `none` at the point where the source catches it, and the
random rolls (`random.choice`) as explicit parameters constrained by
membership in the corresponding value sets.
-/

namespace Camp

/-- Python list indexing: a negative index wraps around from the end of the
list; an index outside `[-len, len)` raises `IndexError`, modelled as
`none`. -/
def pyGet {α : Type} (l : List α) (i : Int) : Option α :=
  if 0 ≤ i then l.get? i.toNat
  else if -i ≤ (l.length : Int) then l.get? (l.length - (-i).toNat) else none

/-- FighterComponent (`Components.py`).  `hp` and `max_hp` are Python ints.
The `ammo`, `max_ammo` and ranged-attack fields are referenced throughout
the repository (`Actor.shoot`, the controllers, the factories) but are not
declared in `Components.py` of this snapshot.
Modelled from the spec: Fighter carries `ammo`/`max_ammo` and a fixed
ranged-attack value. -/
structure FighterComponent where
  max_hp : Int
  hp : Int
  attacks : List Int := [1, 2, 3]
  defenses : List Int := [0, 0, 1]
  ammo : Nat := 0
  max_ammo : Nat := 0
  rangedAttackValue : Int := 1
deriving DecidableEq, Repr

/-- The `hp` property setter of `FighterComponent`: overflow above `max_hp`
is clamped; any lower value (death included) is stored as given. -/
def hpSet (f : FighterComponent) (hp : Int) : FighterComponent :=
  if hp > f.max_hp then { f with hp := f.max_hp } else { f with hp := hp }

/-- `FighterComponent.get_damaged`, with the defender's random defense roll
made explicit: `damage = attack - defense` (no clamping at zero) and
`self.hp -= damage` through the `hp` setter.  The death side effects
(log, item drop, map removal, `was_destroyed` event) update the map, not
the fighter state, and are modelled where the claims need them. -/
def get_damaged (f : FighterComponent) (attack defense : Int) : FighterComponent :=
  hpSet f (f.hp - (attack - defense))

/-- FactionComponent (`Components.py`): a tag plus enemy and ally tag
lists. -/
structure FactionComponent where
  faction : String
  enemies : List String := []
  allies : List String := []
deriving DecidableEq, Repr

/-- `FactionComponent.is_enemy`: the other side's tag is looked up in the
acting side's `enemies` list. -/
def is_enemy (self other : FactionComponent) : Bool :=
  other.faction ∈ self.enemies

/-- One map item (tile, actor, construction or ground item), reduced to the
attributes the embedded operations read: passability flags, the optional
fighter and faction components, the `allow_entrance` attribute (present
only on constructions, hence `Option`) and the `location` attribute kept
in sync with the grid position.  `id` stands for Python object identity. -/
structure Ent where
  id : Nat
  passable : Bool := true
  airPassable : Bool := true
  fighter : Option FighterComponent := none
  factionC : Option FactionComponent := none
  allow_entrance : Option Bool := none
  location : Int × Int := (0, 0)
deriving DecidableEq, Repr

/-- RLMap (`Map.py`): a fixed size, a list of layer names in insertion
order, and for each layer a dense `size.1 × size.2` grid of optional
entities (`items[layer][x][y]`). -/
structure RLMap where
  size : Nat × Nat
  layers : List String
  items : String → List (List (Option Ent))

/-- `RLMap.get_item`: `self.items[layer][x][y]`.  The outer `none` is a
raised `IndexError`; the inner `Option` is the cell content. -/
def get_item (m : RLMap) (layer : String) (loc : Int × Int) : Option (Option Ent) :=
  match pyGet (m.items layer) loc.1 with
  | none => none
  | some row => pyGet row loc.2

/-- `RLMap.get_column`: the truthy items across all layers at a location,
in layer order; `none` when the lookup raises `IndexError`. -/
def get_column? (m : RLMap) (loc : Int × Int) : Option (List Ent) :=
  m.layers.foldr
    (fun layer acc =>
      match get_item m layer loc, acc with
      | some (some e), some rest => some (e :: rest)
      | some none, some rest => some rest
      | _, _ => none)
    (some [])

/-- `RLMap.entrance_possible`: every layer's occupant, if any, must be
passable; an `IndexError` (caught in the source) yields `False`.  Note
that a negative coordinate does not raise in Python: the list index wraps
around to the opposite border. -/
def entrance_possible (m : RLMap) (loc : Int × Int) : Bool :=
  m.layers.all fun layer =>
    match get_item m layer loc with
    | none => false
    | some none => true
    | some (some t) => t.passable

/-- `RLMap.air_entrance_possible`: as `entrance_possible` but on the
`air_passable` flag. -/
def air_entrance_possible (m : RLMap) (loc : Int × Int) : Bool :=
  m.layers.all fun layer =>
    match get_item m layer loc with
    | none => false
    | some none => true
    | some (some t) => t.airPassable

/-- `RLMap.get_neighbour_coordinates` (without `return_query`): the 3×3
block around `location`, keeping coordinates with both components
non-negative, distinct from the query, and whose `bg` lookup does not
raise `IndexError`.  Order follows the source's nested `x`, `y` loops. -/
def get_neighbour_coordinates (m : RLMap) (loc : Int × Int) : List (Int × Int) :=
  ([loc.1 - 1, loc.1, loc.1 + 1].flatMap fun x =>
    [loc.2 - 1, loc.2, loc.2 + 1].map fun y => (x, y)).filter fun c =>
      0 ≤ c.1 && 0 ≤ c.2 && c ≠ loc && (get_item m "bg" c).isSome

/-- The Bresenham iteration of `RLMap.get_line`: `k` points starting at
`(x, y)` with the running `error` term, stepping `y` by `ystep` whenever
the error drops below zero. -/
def bresLoop (isSteep : Bool) (dy dx ystep : Int) :
    Nat → Int → Int → Int → List (Int × Int)
  | 0, _, _, _ => []
  | k + 1, x, y, error =>
    let coord := if isSteep then (y, x) else (x, y)
    let error2 := error - (dy.natAbs : Int)
    if error2 < 0 then
      coord :: bresLoop isSteep dy dx ystep k (x + 1) (y + ystep) (error2 + dx)
    else
      coord :: bresLoop isSteep dy dx ystep k (x + 1) y error2

/-- The pure Bresenham part of `RLMap.get_line` for distinct endpoints:
steep lines swap the axes, right-to-left lines swap the endpoints and
reverse the result. -/
def bresenhamPoints (start fin : Int × Int) : List (Int × Int) :=
  let x1 := start.1; let y1 := start.2
  let x2 := fin.1; let y2 := fin.2
  let dx := x2 - x1; let dy := y2 - y1
  let isSteep := dy.natAbs > dx.natAbs
  let a1 := if isSteep then y1 else x1
  let b1 := if isSteep then x1 else y1
  let a2 := if isSteep then y2 else x2
  let b2 := if isSteep then x2 else y2
  let swapped := a1 > a2
  let p1 := if swapped then (a2, b2) else (a1, b1)
  let p2 := if swapped then (a1, b1) else (a2, b2)
  let ddx := p2.1 - p1.1
  let ddy := p2.2 - p1.2
  let error := ddx / 2
  let ystep : Int := if p1.2 < p2.2 then 1 else -1
  let pts := bresLoop isSteep ddy ddx ystep ((p2.1 - p1.1).toNat + 1) p1.1 p1.2 error
  if swapped then pts.reverse else pts

/-- The cut index of the `for a in range(1, len(points))` loop of
`get_line`: scanning the points after the start with a running index, the
loop breaks at the first air-impassable point; when none blocks, the loop
leaves `a` at the last index. -/
def lineCut (m : RLMap) : List (Int × Int) → Nat → Nat
  | [], i => i - 1
  | p :: rest, i =>
    if air_entrance_possible m p then lineCut m rest (i + 1) else i

/-- `RLMap.get_line`: `[start]` when the endpoints coincide, otherwise the
Bresenham points truncated to `points[:a+1]` with `a` from the blocking
scan. -/
def get_line (m : RLMap) (start fin : Int × Int) : List (Int × Int) :=
  if start.1 = fin.1 ∧ start.2 = fin.2 then [start]
  else
    let points := bresenhamPoints start fin
    points.take (lineCut m points.tail 1 + 1)

/-- The prefix of a list up to and including the first element failing the
predicate, or the whole list when every element satisfies it. -/
def takeThrough {α : Type} (p : α → Bool) : List α → List α
  | [] => []
  | a :: rest => if p a then a :: takeThrough p rest else [a]

/-- The spec's wording of `trace_line`: the Bresenham line truncated to the
prefix of points up to and including the first air-impassable tile after
the start (the full line when every later tile is air-passable), and the
single start point when the endpoints coincide. -/
def specTruncatedLine (m : RLMap) (start fin : Int × Int) : List (Int × Int) :=
  if start = fin then [start]
  else
    match bresenhamPoints start fin with
    | [] => []
    | p :: rest => p :: takeThrough (fun q => air_entrance_possible m q) rest

/-- The value matrix of a `DijkstraMap`: `none` is the impassable
sentinel. -/
abbrev DVals := List (List (Option Int))

/-- Reading `dijkstra._values[x][y]`.  All reads performed by the embedded
operations are at non-negative in-bounds coordinates, so the out-of-range
`none` merges harmlessly with the sentinel. -/
def dval (vs : DVals) (loc : Int × Int) : Option Int :=
  ((pyGet vs loc.1).bind fun row => pyGet row loc.2).join

/-- `DijkstraMap.set_value`: writes a single cell.  All writes performed by
the embedded operations are at non-negative coordinates; an out-of-range
write is a no-op. -/
def dset (vs : DVals) (loc : Int × Int) (v : Option Int) : DVals :=
  if 0 ≤ loc.1 ∧ 0 ≤ loc.2 then
    match pyGet vs loc.1 with
    | some row => vs.set loc.1.toNat (row.set loc.2.toNat v)
    | none => vs
  else vs

/-- `DijkstraMap.should_ignore`: a tile is ignored when its background is
missing or impassable, or when an impassable construction sits on it whose
faction is falsy or fails the `('pc', 'npc')` membership test.  That test
compares a `FactionComponent` object against strings, so in Python it is
never a match; the translation keeps the resulting behaviour. -/
def should_ignore (m : RLMap) (loc : Int × Int) : Bool :=
  match (get_item m "bg" loc).join with
  | none => true
  | some bg =>
    if !bg.passable then true
    else
      match (get_item m "constructions" loc).join with
      | none => false
      | some c => !c.passable && (c.factionC = none || true)

/-- The mutable state threaded through `DijkstraMap._breadth_fill`: the
value matrix and the `updated_now` visited set (kept as a list, membership
only). -/
structure DState where
  values : DVals
  updatedNow : List (Int × Int)
deriving Repr

/-- The inner loop of `_breadth_fill` over one frontier cell's neighbours:
an unvisited non-ignored neighbour joins the next frontier `s`; an
unvisited ignored neighbour is written to the sentinel and marked
visited. -/
def collectNeighbours (m : RLMap) :
    List (Int × Int) → DState → List (Int × Int) → DState × List (Int × Int)
  | [], st, s => (st, s)
  | n :: rest, st, s =>
    if n ∈ st.updatedNow then collectNeighbours m rest st s
    else if should_ignore m n then
      collectNeighbours m rest
        { values := dset st.values n none, updatedNow := st.updatedNow ++ [n] } s
    else
      collectNeighbours m rest st (if n ∈ s then s else s ++ [n])

/-- The outer loop of `_breadth_fill`'s collection phase, over every cell
of the current frontier. -/
def collectFrontier (m : RLMap) :
    List (Int × Int) → DState → List (Int × Int) → DState × List (Int × Int)
  | [], st, s => (st, s)
  | c :: rest, st, s =>
    let r := collectNeighbours m (get_neighbour_coordinates m c) st s
    collectFrontier m rest r.1 r.2

/-- One write of the assignment phase of `_breadth_fill`: the cell is
overwritten with `value + 1` when its current value is at least that. -/
def assignStep (vs : DVals) (c : Int × Int) (value : Int) : DVals :=
  match dval vs c with
  | some old => if old ≥ value + 1 then dset vs c (some (value + 1)) else vs
  | none => vs

/-- The assignment phase of `_breadth_fill` over the whole new
frontier. -/
def assignFrontier (vs : DVals) (s : List (Int × Int)) (value : Int) : DVals :=
  match s with
  | [] => vs
  | c :: rest => assignFrontier (assignStep vs c value) rest value

/-- `DijkstraMap._breadth_fill`, recursion bounded by fuel: collect the
unvisited neighbours of the frontier, assign them `value + 1`, mark them
visited, recurse on them.  Every round with a nonempty new frontier marks
at least one fresh cell visited, so `w * h + 1` units of fuel always
suffice on a `w × h` map. -/
def breadthFill (m : RLMap) : Nat → DState → List (Int × Int) → Int → DState
  | 0, st, _, _ => st
  | fuel + 1, st, filled, value =>
    let r := collectFrontier m filled st []
    if r.2.isEmpty then r.1
    else
      breadthFill m fuel
        { values := assignFrontier r.1.values r.2 value,
          updatedNow := r.1.updatedNow ++ r.2 }
        r.2 (value + 1)

/-- An attractor as `DijkstraMap` sees it: a map item with an object
identity and a `location` attribute. -/
structure Attractor where
  id : Nat
  location : Int × Int
deriving DecidableEq, Repr

/-- The initialization loop of `DijkstraMap.update`: ignored cells get the
sentinel, every other cell the value 1000. -/
def initValues (m : RLMap) : DVals :=
  (List.range m.size.1).map fun x =>
    (List.range m.size.2).map fun y =>
      if should_ignore m (Int.ofNat x, Int.ofNat y) then none else some 1000

/-- The attractor locations in first-appearance order (the source collects
them into the Python set `filled`). -/
def attractorLocs (attractors : List Attractor) : List (Int × Int) :=
  attractors.foldl
    (fun acc a => if a.location ∈ acc then acc else acc ++ [a.location]) []

/-- The attractor loop of `DijkstraMap.update`, restricted to the value
writes: every attractor's cell is set to 0. -/
def zeroFold (attractors : List Attractor) (vs : DVals) : DVals :=
  attractors.foldl (fun acc a => dset acc a.location (some 0)) vs

/-- `DijkstraMap.update`: reinitialize the matrix, write 0 at every
attractor, seed `updated_now` (reset inside the loop, so only the last
attractor's cell survives in it) and run the breadth-first fill from all
attractor cells at value 0. -/
def dijkstraUpdate (m : RLMap) (attractors : List Attractor) : DState :=
  let vals := zeroFold attractors (initValues m)
  let un :=
    match attractors.getLast? with
    | some a => [a.location]
    | none => []
  breadthFill m (m.size.1 * m.size.2 + 1) ⟨vals, un⟩ (attractorLocs attractors) 0

/-- A game event as `DijkstraMap.process_game_event` consumes it: the type
string and the involved actor. -/
structure CampEvent where
  etype : String
  actor : Attractor
deriving DecidableEq, Repr

/-- `DijkstraMap.process_game_event`: on an event whose type has a filter
and whose filter accepts it, an actor absent from the attractor list is
appended; otherwise a `was_destroyed` event removes it; the returned flag
records whether `self.update()` (the full rebuild) ran. -/
def processGameEvent (filterTypes : List String) (pred : String → CampEvent → Bool)
    (attractors : List Attractor) (e : CampEvent) : List Attractor × Bool :=
  if e.etype ∈ filterTypes then
    if pred e.etype e then
      (if e.actor ∉ attractors then attractors ++ [e.actor]
       else if e.etype = "was_destroyed" then attractors.erase e.actor
       else attractors, true)
    else (attractors, false)
  else (attractors, false)

/-- In-bounds coordinates of a map. -/
def inBounds (m : RLMap) (c : Int × Int) : Prop :=
  0 ≤ c.1 ∧ c.1 < (m.size.1 : Int) ∧ 0 ≤ c.2 ∧ c.2 < (m.size.2 : Int)

instance (m : RLMap) (c : Int × Int) : Decidable (inBounds m c) := by
  unfold inBounds; infer_instance

/-- A queue event (`GameEvent.py`), reduced to its type string. -/
structure QEvent where
  etype : String
deriving DecidableEq, Repr

/-- The terminal sentinel appended by `EventQueue.pass_all_events`. -/
def queueExhausted : QEvent := ⟨"queue_exhausted"⟩

/-- A registered listener: an identity plus the events its
`process_game_event` appends back to the queue in response to a delivered
event. -/
structure SimListener where
  id : Nat
  respond : QEvent → List QEvent

/-- The event queue state: the pending deque and the log of deliveries
`(listener id, event)` in the order `process_game_event` calls happen. -/
structure QueueState where
  queue : List QEvent
  delivered : List (Nat × QEvent)

/-- `EventQueue.pass_event`: pop the front event and hand it to every
listener in registration order; events a listener appends go to the back
of the deque.  Popping an empty deque raises in Python; the source only
calls this under a nonemptiness guard. -/
def passEvent (listeners : List SimListener) (st : QueueState) : QueueState :=
  match st.queue with
  | [] => st
  | e :: rest =>
    listeners.foldl
      (fun acc l =>
        { queue := acc.queue ++ l.respond e,
          delivered := acc.delivered ++ [(l.id, e)] })
      { st with queue := rest }

/-- The `while len(self._deque) > 0` drain loop of `pass_all_events`,
bounded by fuel. -/
def drainLoop (listeners : List SimListener) : Nat → QueueState → QueueState
  | 0, st => st
  | fuel + 1, st =>
    if st.queue.isEmpty then st
    else drainLoop listeners fuel (passEvent listeners st)

/-- `EventQueue.pass_all_events`: append the `queue_exhausted` sentinel,
then drain until empty. -/
def passAllEvents (listeners : List SimListener) (fuel : Nat) (st : QueueState) :
    QueueState :=
  drainLoop listeners fuel { st with queue := st.queue ++ [queueExhausted] }

/-- An actor or construction as `RLMap.process_turn` drives it: its
identity, the result its `make_turn` reports, and the events that turn
appends to the queue. -/
structure SimActor where
  id : Nat
  result : Bool
  emits : List QEvent

/-- The world state `process_turn` mutates: the event queue, the log of
entities that executed `make_turn`, and the count of
`rebuild_dijkstras` invocations. -/
structure TurnState where
  qs : QueueState
  actedLog : List Nat
  rebuilds : Nat

/-- `Actor.make_turn` at the granularity `process_turn` observes: the
entity acts (its id is logged), appends its events, and reports its
result. -/
def actorMakeTurn (a : SimActor) (st : TurnState) : Bool × TurnState :=
  (a.result,
   { st with
     qs := { st.qs with queue := st.qs.queue ++ a.emits },
     actedLog := st.actedLog ++ [a.id] })

/-- `RLMap.process_turn`: the primary actor acts; only on success are the
Dijkstra maps rebuilt and the remaining actors and the constructions given
their turns; the event queue is drained to the listeners either way. -/
def processTurn (primary : SimActor) (others constructions : List SimActor)
    (listeners : List SimListener) (fuel : Nat) (st : TurnState) : TurnState :=
  let r := actorMakeTurn primary st
  let st2 :=
    if r.1 then
      let stR := { r.2 with rebuilds := r.2.rebuilds + 1 }
      let stO := others.foldl (fun s a => (actorMakeTurn a s).2) stR
      constructions.foldl (fun s a => (actorMakeTurn a s).2) stO
    else r.2
  { st2 with qs := passAllEvents listeners fuel st2.qs }

/-- The AI actor state a controller reads: position, fighter, faction,
inventory (item descriptor names) and the Dijkstra weight table. -/
structure AIActor where
  location : Int × Int
  fighter : FighterComponent
  factionC : FactionComponent
  inventory : List String
  dijkstraWeights : List (String × Int)
deriving Repr

/-- The world an `AIController` consults: the map and the named Dijkstra
value matrices. -/
structure AIWorld where
  map : RLMap
  dijkstras : String → DVals

/-- `AIController.is_useful`: a Bottle is useful at or below half HP, an
Ammo item when the clip is empty but has capacity.  Python's
`hp <= max_hp / 2` is true float division, so it is `2 * hp ≤ max_hp` on
integers. -/
def is_useful (me : AIActor) (itemName : String) : Bool :=
  (itemName = "Bottle" && 2 * me.fighter.hp ≤ me.fighter.max_hp) ||
  (itemName = "Ammo" && me.fighter.ammo = 0 && me.fighter.max_ammo > 0)

/-- `AIController.get_dijkstra_value` with the running accumulator of the
source: each weighted field contributes `value * weight`; a sentinel in
any field yields `None`. -/
def getDijkstraValueAux (w : AIWorld) (loc : Int × Int) (acc : Int) :
    List (String × Int) → Option Int
  | [] => some acc
  | (name, weight) :: rest =>
    match dval (w.dijkstras name) loc with
    | some v => getDijkstraValueAux w loc (acc + v * weight) rest
    | none => none

/-- `AIController.get_dijkstra_value`. -/
def get_dijkstra_value (w : AIWorld) (me : AIActor) (loc : Int × Int) : Option Int :=
  getDijkstraValueAux w loc 0 me.dijkstraWeights

/-- `Controller._should_attack`: the other item bears a fighter and its
faction tag is in the acting side's enemy list.  An item without a faction
component cannot be evaluated (`AttributeError` in Python); it is treated
as non-attackable here, a case no embedded scenario reaches. -/
def shouldAttack (me : AIActor) (other : Ent) : Bool :=
  match other.fighter with
  | none => false
  | some _ =>
    match other.factionC with
    | some oc => is_enemy me.factionC oc
    | none => false

/-- `Controller.should_walk`: a tile is refused when an occupant bears a
fighter, is not an enemy, and does not explicitly allow entrance.  Items
without the attributes involved are skipped by the source's
`AttributeError` handler, which the `Option` fields reproduce. -/
def should_walk (w : AIWorld) (me : AIActor) (loc : Int × Int) : Bool :=
  ((get_column? w.map loc).getD []).all fun item =>
    !(item.fighter.isSome && !shouldAttack me item &&
      !(item.allow_entrance = some true))

/-- Integer range `[a, b)` as a list, the scan order of Python
`range`. -/
def intRange (a b : Int) : List Int :=
  (List.range (b - a).toNat).map fun k => a + (k : Int)

/-- Stable insertion of an element after every element whose key does not
exceed its own. -/
def insertSorted {α : Type} (key : α → Nat) (a : α) : List α → List α
  | [] => [a]
  | b :: rest =>
    if key b ≤ key a then b :: insertSorted key a rest else a :: b :: rest

/-- A stable sort by an integer key, modelling Python's stable
`sorted`. -/
def stableSortBy {α : Type} (key : α → Nat) (l : List α) : List α :=
  l.foldl (fun acc a => insertSorted key a acc) []

/-- The bounding-box scan of `RLMap.get_shootable_in_range`: the clamped
`x`/`y` ranges (note the source clamps the upper `y` bound to
`size[1] - 1`, not `size[1]`), and the items on the requested layers in
scan order (`x`, then `y`, then layer). -/
def shootableScan (m : RLMap) (loc : Int × Int) (layers : List String)
    (distance : Int) : List Ent :=
  let xlo := max 0 (loc.1 - distance)
  let xhi := min ((m.size.1 : Int)) (loc.1 + distance + 1)
  let ylo := max 0 (loc.2 - distance)
  let yhi := min ((m.size.2 : Int) - 1) (loc.2 + distance + 1)
  (intRange xlo xhi).flatMap fun x =>
    (intRange ylo yhi).flatMap fun y =>
      layers.filterMap fun l => (get_item m l (x, y)).join

/-- The reachability scoring of `get_shootable_in_range`: an item is kept
when the traced line ends at it (beyond the adjacent ring when
`excl`), scored with the line's length.  The source compares
`line[-1] == item.location`; the embedding uses coordinate equality, the
behaviour for items whose `location` is a tuple. -/
def shootableScore (m : RLMap) (loc : Int × Int) (excl : Bool) (item : Ent) :
    Option (Ent × Nat) :=
  let line := get_line m loc item.location
  if line.getLast? = some item.location && (line.length > 2 || !excl)
  then some (item, line.length) else none

/-- `RLMap.get_shootable_in_range`: scan, score, and sort by line length,
ties kept in scan order (Python's `sorted` is stable). -/
def get_shootable_in_range (m : RLMap) (loc : Int × Int) (layers : List String)
    (distance : Int) (excludeNeighbours : Bool) : List Ent :=
  (stableSortBy (fun p => p.2)
    ((shootableScan m loc layers distance).filterMap
      (shootableScore m loc excludeNeighbours))).map Prod.fst

/-- A Command as the AI controllers produce it. -/
inductive Cmd where
  | use_item (idx : Nat)
  | walk (delta : Int × Int)
  | wait
  | shoot (loc : Int × Int)
deriving DecidableEq, Repr

/-- `MeleeAIController.choose_actor_action`: use the first useful
inventory item if any; otherwise walk towards the lowest weighted Dijkstra
value among the walkable neighbours (the source's `if value:` drops both
sentinel and zero-valued cells), falling back to waiting when no candidate
survives.  `pick` stands for `random.choice`, returning `none` exactly on
the empty list (the caught `IndexError`); the result is `none` when the
current cell's Dijkstra value is the sentinel, which raises in Python. -/
def chooseMelee (w : AIWorld) (me : AIActor)
    (pick : List (Int × Int) → Option (Int × Int)) : Option Cmd :=
  match me.inventory.findIdx? (is_useful me) with
  | some i => some (.use_item i)
  | none =>
    match get_dijkstra_value w me me.location with
    | none => none
    | some current =>
      let nbrs := get_neighbour_coordinates w.map me.location
      let scan := nbrs.foldl
        (fun (acc : Int × List (Int × Int)) n =>
          match get_dijkstra_value w me n with
          | none => acc
          | some v =>
            if v = 0 then acc
            else if v < acc.1 && should_walk w me n then (v, [n])
            else if v = acc.1 && should_walk w me n then (acc.1, acc.2 ++ [n])
            else acc)
        (current + 1, [])
      match pick (scan.2.filter (should_walk w me)) with
      | some t => some (.walk (t.1 - me.location.1, t.2 - me.location.2))
      | none => some .wait

/-- `RangedAIController.choose_actor_action`: with ammo, shoot the first
attackable item among the shootables within distance 3 (neighbours
excluded); otherwise defer to the melee logic. -/
def chooseRanged (w : AIWorld) (me : AIActor)
    (pick : List (Int × Int) → Option (Int × Int)) : Option Cmd :=
  if me.fighter.ammo > 0 then
    let shootable :=
      get_shootable_in_range w.map me.location ["actors", "constructions"] 3 true
    match shootable.filter (shouldAttack me) with
    | v :: _ => some (.shoot v.location)
    | [] => chooseMelee w me pick
  else chooseMelee w me pick

/-- What `Actor.shoot` changes: whether it fired, the shooter's fighter
(one ammo consumed on success), the occupant picked as victim (the topmost
item of the terminal column) and that victim's fighter after damage, and
whether the out-of-ammo message was logged. -/
structure ShootOutcome where
  fired : Bool
  shooterFighter : FighterComponent
  victim : Option Ent
  victimFighterAfter : Option FighterComponent
  loggedOutOfAmmo : Bool
deriving DecidableEq, Repr

/-- `Actor.shoot`: with ammo, consume one, trace the line towards the
target, take the topmost occupant of the line's terminal cell and damage
it only when it bears a fighter, reporting success; without ammo, log and
report failure.  The victim's defense roll is the explicit
`defenseRoll`. -/
def shoot (m : RLMap) (shooterF : FighterComponent) (fromLoc target : Int × Int)
    (defenseRoll : Int) : ShootOutcome :=
  if shooterF.ammo > 0 then
    let f2 := { shooterF with ammo := shooterF.ammo - 1 }
    let path := get_line m fromLoc target
    let terminal := path.getLast?.getD fromLoc
    let victim := ((get_column? m terminal).getD []).getLast?
    match victim with
    | some v =>
      match v.fighter with
      | some vf =>
        { fired := true, shooterFighter := f2, victim := some v,
          victimFighterAfter :=
            some (get_damaged vf shooterF.rangedAttackValue defenseRoll),
          loggedOutOfAmmo := false }
      | none =>
        { fired := true, shooterFighter := f2, victim := some v,
          victimFighterAfter := none, loggedOutOfAmmo := false }
    | none =>
      { fired := true, shooterFighter := f2, victim := none,
        victimFighterAfter := none, loggedOutOfAmmo := false }
  else
    { fired := false, shooterFighter := shooterF, victim := none,
      victimFighterAfter := none, loggedOutOfAmmo := true }

/-- `Actor.collide` restricted to the melee resolution: when both sides
bear fighters, the defender takes `get_damaged(attacker roll)` with its
own defense roll, and the collision reports `True`; otherwise nothing
happens (Python returns `None`). -/
def collideMelee (defender attacker : Ent) (atkRoll defRoll : Int) : Ent × Bool :=
  match defender.fighter, attacker.fighter with
  | some df, some _ =>
    ({ defender with fighter := some (get_damaged df atkRoll defRoll) }, true)
  | _, _ => (defender, false)

/-- Grid dimensions of a value matrix. -/
def gridDims (m : RLMap) (vs : DVals) : Prop :=
  vs.length = m.size.1 ∧ ∀ row ∈ vs, row.length = m.size.2

/-- Well-formedness of an entity layer: the grid has exactly the map's
declared dimensions, as `RLMap.__init__` allocates it. -/
def layerDims (m : RLMap) (g : List (List (Option Ent))) : Prop :=
  g.length = m.size.1 ∧ ∀ row ∈ g, row.length = m.size.2

instance (m : RLMap) (g : List (List (Option Ent))) : Decidable (layerDims m g) := by
  unfold layerDims; infer_instance

/-- Every in-bounds cell of the map, in scan order. -/
def allCells (m : RLMap) : List (Int × Int) :=
  (List.range m.size.1).flatMap fun x =>
    (List.range m.size.2).map fun y => (Int.ofNat x, Int.ofNat y)

/-- The finite distance values of a cell's visited 8-neighbours: the data
over which the spec's "1 + the minimum value among its already-visited
8-neighbors" invariant speaks. -/
def visitedNbrVals (m : RLMap) (vs : DVals) (un : List (Int × Int))
    (c : Int × Int) : List Int :=
  (get_neighbour_coordinates m c).filterMap fun n =>
    if n ∈ un then dval vs n else none

/-- The claim's local-minimum property at a cell of a finished field: the
cell's value is one more than the minimum among the finite values of its
already-visited 8-neighbours. -/
def localMinProp (m : RLMap) (st : DState) (c : Int × Int) : Prop :=
  ∃ mn, (visitedNbrVals m st.values st.updatedNow c).min? = some mn ∧
    dval st.values c = some (mn + 1)

/-- The inductive invariant carried through `_breadth_fill`.  `L` is the
list of attractor locations; `st`, `filled` and `value` are the state and
arguments of the current recursive call.  The fields record: bookkeeping
of the visited list (no duplicates, in bounds, enough cells visited to
bound `value`); the attractor cells hold 0 and untouched passable cells
hold 1000; the frontier holds the current `value` (or is a re-collected
attractor cell); visited impassable cells hold the sentinel; every
visited passable non-attractor cell has a finite value `j ≥ 1`, a
neighbour at `j - 1` among the visited-or-attractor cells and no
visited-or-attractor neighbour below `j - 1`; and all visited passable
cells off the frontier, as well as every attractor cell once the first
wave has run, have fully visited neighbourhoods. -/
structure BFInv (m : RLMap) (L : List (Int × Int)) (st : DState)
    (filled : List (Int × Int)) (value : Int) : Prop where
  hv0 : 0 ≤ value
  hdims : gridDims m st.values
  hnodup : st.updatedNow.Nodup
  hunb : ∀ u ∈ st.updatedNow, inBounds m u
  hvlen : value + 1 ≤ (st.updatedNow.length : Int)
  hLb : ∀ a ∈ L, inBounds m a ∧ should_ignore m a = false
  hfreshL : ∀ a ∈ L, dval st.values a = some 0
  hfresh : ∀ c, inBounds m c → should_ignore m c = false →
    c ∉ st.updatedNow → c ∉ L → dval st.values c = some 1000
  hfill : ∀ f ∈ filled, should_ignore m f = false ∧ inBounds m f ∧
    (dval st.values f = some value ∨ f ∈ L)
  hfillmem : ∀ f ∈ filled, f ∈ st.updatedNow ∨ f ∈ L
  hLfill : value = 0 → ∀ a ∈ L, a ∈ filled
  hvisNone : ∀ u ∈ st.updatedNow, should_ignore m u = true →
    dval st.values u = none
  hvisVal : ∀ u ∈ st.updatedNow, should_ignore m u = false → u ∉ L →
    ∃ j, dval st.values u = some j ∧ 1 ≤ j ∧ j ≤ value ∧
      (∃ n ∈ get_neighbour_coordinates m u, (n ∈ st.updatedNow ∨ n ∈ L) ∧
        dval st.values n = some (j - 1)) ∧
      (∀ n ∈ get_neighbour_coordinates m u, n ∈ st.updatedNow ∨ n ∈ L →
        ∀ i, dval st.values n = some i → j ≤ i + 1)
  hclosed : ∀ u ∈ st.updatedNow, should_ignore m u = false → u ∉ filled →
    ∀ n ∈ get_neighbour_coordinates m u, n ∈ st.updatedNow
  hclosedL : 1 ≤ value → ∀ a ∈ L, ∀ n ∈ get_neighbour_coordinates m a,
    n ∈ st.updatedNow

/-! ## Concrete scenarios -/

/-- An all-passable ground tile. -/
def groundTile : Ent := { id := 0 }

/-- A `w × h` layer filled with ground tiles. -/
def openLayer (w h : Nat) : List (List (Option Ent)) :=
  (List.range w).map fun _ => (List.range h).map fun _ => some groundTile

/-- An empty `w × h` layer. -/
def emptyLayer (w h : Nat) : List (List (Option Ent)) :=
  (List.range w).map fun _ => (List.range h).map fun _ => none

/-- The standard layer list of the repository's maps. -/
def stdLayers : List String := ["bg", "constructions", "items", "actors"]

/-- Scenario C's map: an open 3×3 grid. -/
def open3 : RLMap :=
  { size := (3, 3), layers := stdLayers,
    items := fun l => if l = "bg" then openLayer 3 3 else emptyLayer 3 3 }

/-- The Dijkstra state after a rebuild of `open3` with the single
attractor at the origin. -/
def scenC : DState := dijkstraUpdate open3 [⟨1, (0, 0)⟩]

/-- All nine cells of the 3×3 grid. -/
def cells3 : List (Int × Int) :=
  [(0, 0), (0, 1), (0, 2), (1, 0), (1, 1), (1, 2), (2, 0), (2, 1), (2, 2)]

/-- The local distance-field consistency check at a reached cell: its
value is one more than the minimum value among its strictly
smaller-valued (hence earlier-visited) neighbours. -/
def reachedLocalCheck (m : RLMap) (vs : DVals) (c : Int × Int) : Bool :=
  match dval vs c with
  | none => false
  | some v =>
    let smaller := (get_neighbour_coordinates m c).filterMap fun n =>
      match dval vs n with
      | some u => if u < v then some u else none
      | none => none
    match smaller.min? with
    | some mn => v = mn + 1
    | none => false


/-- The defender's fighter of the melee-damage scenario: hp 2 of 5, with a
defense roll of 3 available. -/
def defFC1 : FighterComponent := { max_hp := 5, hp := 2, defenses := [0, 0, 3] }

/-- The attacker's fighter of the melee-damage scenario (default attack
rolls `{1, 2, 3}`). -/
def atkFC1 : FighterComponent := { max_hp := 5, hp := 5 }

/-- The defender of the melee-damage scenario. -/
def defenderC1 : Ent := { id := 1, fighter := some defFC1 }

/-- The attacker of the melee-damage scenario. -/
def attackerC1 : Ent := { id := 2, fighter := some atkFC1 }

/-- A 3×3 map whose middle background column is impassable, splitting the
grid in two. -/
def walled3 : RLMap :=
  { size := (3, 3), layers := stdLayers,
    items := fun l =>
      if l = "bg" then
        [[some groundTile, some groundTile, some groundTile],
         [some { groundTile with passable := false, airPassable := false },
          some { groundTile with passable := false, airPassable := false },
          some { groundTile with passable := false, airPassable := false }],
         [some groundTile, some groundTile, some groundTile]]
      else emptyLayer 3 3 }

/-- The Dijkstra state of `walled3` rebuilt from the single attractor at
the origin: the right column is unreachable. -/
def scenW : DState := dijkstraUpdate walled3 [⟨1, (0, 0)⟩]


/-- An AI world whose sole Dijkstra field is the rebuilt field of the
walled map. -/
def walledWorld : AIWorld :=
  { map := walled3,
    dijkstras := fun _ => (dijkstraUpdate walled3 [⟨1, (0, 0)⟩]).values }

/-- An AI actor on the walled map weighting the `PC` field by 2. -/
def walledMe : AIActor :=
  { location := (0, 0),
    fighter := { max_hp := 1, hp := 1 },
    factionC := { faction := "npc", enemies := ["pc"] },
    inventory := [],
    dijkstraWeights := [("PC", 2)] }

/-- The player-side target of the ranged AI scenarios: an impassable
actor with a fighter, faction `pc`. -/
def pcTarget : Ent :=
  { id := 7, passable := false, airPassable := false,
    fighter := some { max_hp := 5, hp := 5 },
    factionC := some { faction := "pc", enemies := ["npc"] },
    location := (3, 1) }

/-- Scenario map for the ranged-AI priority claim: a 5×3 open grid with
the enemy target standing at `(3, 1)`. -/
def rangedMap : RLMap :=
  { size := (5, 3), layers := stdLayers,
    items := fun l =>
      if l = "bg" then openLayer 5 3
      else if l = "actors" then
        [[none, none, none], [none, none, none], [none, none, none],
         [none, some pcTarget, none], [none, none, none]]
      else emptyLayer 5 3 }

/-- The ranged AI of the priority scenario: it stands at `(0, 1)` with one
round of ammo, half HP and a Bottle in its inventory, so the Bottle is
useful right now. -/
def rangedMe : AIActor :=
  { location := (0, 1),
    fighter := { max_hp := 4, hp := 1, ammo := 1, max_ammo := 3 },
    factionC := { faction := "npc", enemies := ["pc"] },
    inventory := ["Bottle"],
    dijkstraWeights := [("PC", 1)] }

/-- The world of the ranged-AI scenario. -/
def rangedWorld : AIWorld :=
  { map := rangedMap, dijkstras := fun _ => initValues rangedMap }


/-- The fighter-bearing construction standing at the terminal cell of the
shooting scenario. -/
def bunker : Ent :=
  { id := 21, passable := false, airPassable := false,
    fighter := some { max_hp := 6, hp := 6 },
    factionC := some { faction := "npc", enemies := ["pc"] },
    location := (2, 0) }

/-- A fighterless ground item lying on top of the bunker's cell. -/
def crate : Ent := { id := 22, location := (2, 0) }

/-- The 4×1 map of the shooting scenario: the bunker and the crate share
the column at `(2, 0)`. -/
def shootMap : RLMap :=
  { size := (4, 1), layers := stdLayers,
    items := fun l =>
      if l = "bg" then openLayer 4 1
      else if l = "constructions" then [[none], [none], [some bunker], [none]]
      else if l = "items" then [[none], [none], [some crate], [none]]
      else emptyLayer 4 1 }

/-- The shooter's fighter in the shooting scenario. -/
def shooterF : FighterComponent :=
  { max_hp := 5, hp := 5, ammo := 2, max_ammo := 5, rangedAttackValue := 3 }



/-! ## Cell access lemmas -/

theorem pyGet_nonneg {α : Type} (l : List α) (i : Int) (h : 0 ≤ i) :
    pyGet l i = l.get? i.toNat := by
  simp [pyGet, h]

theorem dval_nonneg (vs : DVals) (c : Int × Int) (h1 : 0 ≤ c.1) (h2 : 0 ≤ c.2) :
    dval vs c =
      ((vs.get? c.1.toNat).bind fun row => row.get? c.2.toNat).join := by
  unfold dval
  rw [pyGet_nonneg _ _ h1]
  cases vs.get? c.1.toNat with
  | none => rfl
  | some row => simp [pyGet_nonneg _ _ h2]

/-- A write at a different cell leaves a non-negative cell's value
unchanged. -/
theorem dval_dset_ne (vs : DVals) (loc c : Int × Int) (v : Option Int)
    (h1 : 0 ≤ c.1) (h2 : 0 ≤ c.2) (hne : c ≠ loc) :
    dval (dset vs loc v) c = dval vs c := by
  by_cases hl : 0 ≤ loc.1 ∧ 0 ≤ loc.2
  · cases hrow : pyGet vs loc.1 with
    | none =>
      have hset : dset vs loc v = vs := by unfold dset; rw [if_pos hl, hrow]
      rw [hset]
    | some row =>
      have hset : dset vs loc v = vs.set loc.1.toNat (row.set loc.2.toNat v) := by
        unfold dset; rw [if_pos hl, hrow]
      rw [hset, dval_nonneg _ _ h1 h2, dval_nonneg _ _ h1 h2]
      by_cases hx : c.1.toNat = loc.1.toNat
      · have hx2 : c.1 = loc.1 := by omega
        have hy : c.2 ≠ loc.2 := fun hy => hne (Prod.ext hx2 hy)
        have hy2 : loc.2.toNat ≠ c.2.toNat := by omega
        have hrow2 : vs.get? loc.1.toNat = some row := by
          rw [← pyGet_nonneg _ _ hl.1]; exact hrow
        have hxlt : loc.1.toNat < vs.length := (List.get?_eq_some.mp hrow2).choose
        have houter : (vs.set loc.1.toNat (row.set loc.2.toNat v)).get? c.1.toNat
            = some (row.set loc.2.toNat v) := by
          rw [hx]; exact List.get?_set_eq_of_lt _ hxlt
        have hcrow : vs.get? c.1.toNat = some row := by rw [hx]; exact hrow2
        rw [houter, hcrow]
        simp only [Option.some_bind]
        rw [List.get?_set_ne _ _ hy2]
      · rw [List.get?_set_ne _ _ fun h => hx h.symm]
  · have hset : dset vs loc v = vs := by unfold dset; rw [if_neg hl]
    rw [hset]


theorem gridDims_dset (m : RLMap) (vs : DVals) (loc : Int × Int) (v : Option Int)
    (h : gridDims m vs) : gridDims m (dset vs loc v) := by
  unfold dset
  by_cases hl : 0 ≤ loc.1 ∧ 0 ≤ loc.2
  · simp only [hl, if_true]
    cases hrow : pyGet vs loc.1 with
    | none => exact h
    | some row =>
      constructor
      · simp [h.1]
      · intro r hr
        rcases List.mem_or_eq_of_mem_set hr with hmem | heq
        · exact h.2 r hmem
        · subst heq
          rw [List.length_set]
          rw [pyGet_nonneg _ _ hl.1] at hrow
          exact h.2 row (List.get?_mem hrow)
  · simpa [hl] using h

/-- A write at an in-bounds cell is read back. -/
theorem dval_dset_inb (m : RLMap) (vs : DVals) (loc : Int × Int) (v : Option Int)
    (hd : gridDims m vs) (hin : inBounds m loc) :
    dval (dset vs loc v) loc = v := by
  obtain ⟨hx0, hx1, hy0, hy1⟩ := hin
  have hl : 0 ≤ loc.1 ∧ 0 ≤ loc.2 := ⟨hx0, hy0⟩
  have hlen := hd.1
  have hxlt : loc.1.toNat < vs.length := by omega
  cases hrow : vs.get? loc.1.toNat with
  | none =>
    rw [List.get?_eq_get hxlt] at hrow
    exact absurd hrow (by simp)
  | some row =>
    have hrlen : row.length = m.size.2 := hd.2 row (List.get?_mem hrow)
    have hylt : loc.2.toNat < row.length := by omega
    have houter : (vs.set loc.1.toNat (row.set loc.2.toNat v)).get? loc.1.toNat
        = some (row.set loc.2.toNat v) := List.get?_set_eq_of_lt _ hxlt
    have hinner : (row.set loc.2.toNat v).get? loc.2.toNat = some v :=
      List.get?_set_eq_of_lt _ hylt
    unfold dset
    rw [if_pos hl, pyGet_nonneg _ _ hx0, hrow, dval_nonneg _ _ hx0 hy0, houter]
    simp only [Option.some_bind]
    rw [hinner]
    rfl

theorem gridDims_initValues (m : RLMap) : gridDims m (initValues m) := by
  constructor
  · simp [initValues]
  · intro row hrow
    simp only [initValues, List.mem_map] at hrow
    obtain ⟨x, _, rfl⟩ := hrow
    simp

theorem dval_initValues (m : RLMap) (c : Int × Int) (hin : inBounds m c) :
    dval (initValues m) c = if should_ignore m c then none else some 1000 := by
  obtain ⟨hx0, hx1, hy0, hy1⟩ := hin
  have hc : (Int.ofNat c.1.toNat, Int.ofNat c.2.toNat) = c :=
    Prod.ext (Int.toNat_of_nonneg hx0) (Int.toNat_of_nonneg hy0)
  rw [dval_nonneg _ _ hx0 hy0]
  unfold initValues
  rw [List.get?_map, List.get?_range (by omega : c.1.toNat < m.size.1)]
  simp only [Option.map_some', Option.some_bind]
  rw [List.get?_map, List.get?_range (by omega : c.2.toNat < m.size.2)]
  simp only [Option.map_some', Option.join]
  rw [hc]
  simp

theorem gridDims_zeroFold (m : RLMap) (attractors : List Attractor) :
    ∀ vs, gridDims m vs → gridDims m (zeroFold attractors vs) := by
  induction attractors with
  | nil => intro vs h; exact h
  | cons a rest ih =>
    intro vs h
    exact ih _ (gridDims_dset m vs a.location (some 0) h)

theorem zeroFold_ne (attractors : List Attractor) (c : Int × Int)
    (h1 : 0 ≤ c.1) (h2 : 0 ≤ c.2) (h : ∀ a ∈ attractors, c ≠ a.location) :
    ∀ vs, dval (zeroFold attractors vs) c = dval vs c := by
  induction attractors with
  | nil => intro vs; rfl
  | cons a rest ih =>
    intro vs
    have := ih (fun b hb => h b (List.mem_cons_of_mem a hb)) (dset vs a.location (some 0))
    rw [zeroFold] at this ⊢
    simp only [List.foldl_cons] at this ⊢
    rw [this, dval_dset_ne _ _ _ _ h1 h2 (h a (List.mem_cons_self a rest))]

theorem zeroFold_keeps_zero (m : RLMap) (attractors : List Attractor)
    (loc : Int × Int) (hin : inBounds m loc) :
    ∀ vs, gridDims m vs → dval vs loc = some 0 →
      dval (zeroFold attractors vs) loc = some 0 := by
  induction attractors with
  | nil => intro vs _ h0; exact h0
  | cons a rest ih =>
    intro vs hd h0
    have hstep : dval (dset vs a.location (some 0)) loc = some 0 := by
      by_cases he : loc = a.location
      · rw [he] at hin ⊢
        exact dval_dset_inb m vs a.location (some 0) hd hin
      · rw [dval_dset_ne _ _ _ _ hin.1 hin.2.2.1 he]; exact h0
    exact ih _ (gridDims_dset m vs a.location (some 0) hd) hstep

theorem zeroFold_mem (m : RLMap) (attractors : List Attractor) (a : Attractor)
    (ha : a ∈ attractors) (hin : inBounds m a.location) :
    ∀ vs, gridDims m vs → dval (zeroFold attractors vs) a.location = some 0 := by
  induction attractors with
  | nil => cases ha
  | cons b rest ih =>
    intro vs hd
    rcases List.mem_cons.mp ha with heq | hmem
    · subst heq
      have h0 : dval (dset vs a.location (some 0)) a.location = some 0 :=
        dval_dset_inb m vs a.location (some 0) hd hin
      exact zeroFold_keeps_zero m rest a.location hin _
        (gridDims_dset m vs a.location (some 0) hd) h0
    · exact ih hmem _ (gridDims_dset m vs b.location (some 0) hd)

/-! ## Neighbourhood geometry lemmas -/

theorem mem_nbr_iff (m : RLMap) (loc n : Int × Int) :
    n ∈ get_neighbour_coordinates m loc ↔
      ((n.1 = loc.1 - 1 ∨ n.1 = loc.1 ∨ n.1 = loc.1 + 1) ∧
       (n.2 = loc.2 - 1 ∨ n.2 = loc.2 ∨ n.2 = loc.2 + 1) ∧
       0 ≤ n.1 ∧ 0 ≤ n.2 ∧ n ≠ loc ∧ (get_item m "bg" n).isSome = true) := by
  unfold get_neighbour_coordinates
  simp only [List.mem_filter, List.mem_flatMap, List.mem_map, List.mem_cons,
    List.not_mem_nil, or_false, Bool.and_eq_true, decide_eq_true_eq]
  constructor
  · rintro ⟨⟨x, hx, y, hy, rfl⟩, ⟨⟨h1, h2⟩, h3⟩, h4⟩
    exact ⟨by tauto, by tauto, h1, h2, h3, h4⟩
  · rintro ⟨hx, hy, h1, h2, h3, h4⟩
    exact ⟨⟨n.1, by tauto, n.2, by tauto, rfl⟩, ⟨⟨h1, h2⟩, h3⟩, h4⟩

theorem bg_isSome_iff (m : RLMap) (hld : layerDims m (m.items "bg"))
    (c : Int × Int) (h1 : 0 ≤ c.1) (h2 : 0 ≤ c.2) :
    (get_item m "bg" c).isSome = true ↔ inBounds m c := by
  have hgi : ∀ row, (m.items "bg").get? c.1.toNat = some row →
      get_item m "bg" c = pyGet row c.2 := by
    intro row hrow
    unfold get_item
    rw [pyGet_nonneg _ _ h1, hrow]
  have hgi0 : (m.items "bg").get? c.1.toNat = none → get_item m "bg" c = none := by
    intro hrow
    unfold get_item
    rw [pyGet_nonneg _ _ h1, hrow]
  have hlen := hld.1
  constructor
  · intro h
    cases hrow : (m.items "bg").get? c.1.toNat with
    | none => rw [hgi0 hrow] at h; cases h
    | some row =>
      rw [hgi row hrow, pyGet_nonneg _ _ h2] at h
      have hx : c.1.toNat < (m.items "bg").length :=
        (List.get?_eq_some.mp hrow).choose
      have hrl : row.length = m.size.2 := hld.2 row (List.get?_mem hrow)
      obtain ⟨v, hv⟩ := Option.isSome_iff_exists.mp h
      have hy : c.2.toNat < row.length := (List.get?_eq_some.mp hv).choose
      exact ⟨h1, by omega, h2, by omega⟩
  · intro hin
    obtain ⟨_, hx1, _, hy1⟩ := hin
    have hx : c.1.toNat < (m.items "bg").length := by omega
    cases hrow : (m.items "bg").get? c.1.toNat with
    | none => rw [List.get?_eq_get hx] at hrow; cases hrow
    | some row =>
      rw [hgi row hrow, pyGet_nonneg _ _ h2]
      have hrl : row.length = m.size.2 := hld.2 row (List.get?_mem hrow)
      have hy : c.2.toNat < row.length := by omega
      rw [List.get?_eq_get hy]
      rfl

theorem nbr_inBounds (m : RLMap) (hld : layerDims m (m.items "bg"))
    (loc n : Int × Int) (h : n ∈ get_neighbour_coordinates m loc) :
    inBounds m n := by
  obtain ⟨_, _, h1, h2, _, hsome⟩ := (mem_nbr_iff m loc n).mp h
  exact (bg_isSome_iff m hld n h1 h2).mp hsome

theorem nbr_symm (m : RLMap) (hld : layerDims m (m.items "bg"))
    (loc n : Int × Int) (h : n ∈ get_neighbour_coordinates m loc)
    (hin : inBounds m loc) : loc ∈ get_neighbour_coordinates m n := by
  obtain ⟨hx, hy, h1, h2, hne, _⟩ := (mem_nbr_iff m loc n).mp h
  refine (mem_nbr_iff m n loc).mpr
    ⟨by omega, by omega, hin.1, hin.2.2.1, fun he => hne he.symm,
      (bg_isSome_iff m hld loc hin.1 hin.2.2.1).mpr hin⟩

/-! ## Cell counting lemmas -/

theorem length_allCells (m : RLMap) :
    (allCells m).length = m.size.1 * m.size.2 := by
  have aux : ∀ (w h : Nat),
      ((List.range w).flatMap fun x =>
        (List.range h).map fun y => ((Int.ofNat x, Int.ofNat y) : Int × Int)).length
        = w * h := by
    intro w h
    induction w with
    | zero => simp
    | succ w ih =>
      rw [List.range_succ, List.flatMap_append, List.length_append, ih]
      simp [Nat.succ_mul]
  exact aux m.size.1 m.size.2

theorem mem_allCells (m : RLMap) (c : Int × Int) :
    c ∈ allCells m ↔ inBounds m c := by
  unfold allCells inBounds
  simp only [List.mem_flatMap, List.mem_map, List.mem_range]
  constructor
  · rintro ⟨x, hx, y, hy, rfl⟩
    refine ⟨by simp, ?_, by simp, ?_⟩ <;> simp <;> omega
  · rintro ⟨h1, h2, h3, h4⟩
    refine ⟨c.1.toNat, by omega, c.2.toNat, by omega, ?_⟩
    exact Prod.ext (Int.toNat_of_nonneg h1) (Int.toNat_of_nonneg h3)

theorem length_le_allCells (m : RLMap) (un : List (Int × Int))
    (hnd : un.Nodup) (hsub : ∀ u ∈ un, inBounds m u) :
    un.length ≤ (allCells m).length :=
  (hnd.subperm fun u hu => (mem_allCells m u).mpr (hsub u hu)).length_le

/-! ## Breadth-first fill preservation lemmas -/

theorem collectNeighbours_un (m : RLMap) :
    ∀ (ns : List (Int × Int)) (st : DState) (s : List (Int × Int)),
      ∃ t, (collectNeighbours m ns st s).1.updatedNow = st.updatedNow ++ t := by
  intro ns
  induction ns with
  | nil => exact fun st s => ⟨[], by simp [collectNeighbours]⟩
  | cons n rest ih =>
    intro st s
    simp only [collectNeighbours]
    by_cases hm : n ∈ st.updatedNow
    · rw [if_pos hm]; exact ih st s
    · rw [if_neg hm]
      by_cases hig : should_ignore m n = true
      · rw [if_pos hig]
        obtain ⟨t, ht⟩ := ih ⟨dset st.values n none, st.updatedNow ++ [n]⟩ s
        exact ⟨[n] ++ t, by simpa using ht⟩
      · rw [if_neg hig]
        exact ih st _

theorem collectFrontier_un (m : RLMap) :
    ∀ (cells : List (Int × Int)) (st : DState) (s : List (Int × Int)),
      ∃ t, (collectFrontier m cells st s).1.updatedNow = st.updatedNow ++ t := by
  intro cells
  induction cells with
  | nil => exact fun st s => ⟨[], by simp [collectFrontier]⟩
  | cons c0 rest ih =>
    intro st s
    simp only [collectFrontier]
    obtain ⟨t1, ht1⟩ := collectNeighbours_un m (get_neighbour_coordinates m c0) st s
    obtain ⟨t2, ht2⟩ := ih (collectNeighbours m (get_neighbour_coordinates m c0) st s).1
      (collectNeighbours m (get_neighbour_coordinates m c0) st s).2
    exact ⟨t1 ++ t2, by rw [ht2, ht1, List.append_assoc]⟩

theorem breadthFill_un (m : RLMap) :
    ∀ (fuel : Nat) (st : DState) (filled : List (Int × Int)) (v : Int),
      ∃ t, (breadthFill m fuel st filled v).updatedNow = st.updatedNow ++ t := by
  intro fuel
  induction fuel with
  | zero => exact fun st filled v => ⟨[], by simp [breadthFill]⟩
  | succ fuel ih =>
    intro st filled v
    simp only [breadthFill]
    obtain ⟨t1, ht1⟩ := collectFrontier_un m filled st []
    by_cases hs : (collectFrontier m filled st []).2.isEmpty
    · rw [if_pos hs]; exact ⟨t1, ht1⟩
    · rw [if_neg hs]
      obtain ⟨t2, ht2⟩ := ih
        { values := assignFrontier (collectFrontier m filled st []).1.values
            (collectFrontier m filled st []).2 v,
          updatedNow := (collectFrontier m filled st []).1.updatedNow ++
            (collectFrontier m filled st []).2 }
        (collectFrontier m filled st []).2 (v + 1)
      refine ⟨t1 ++ (collectFrontier m filled st []).2 ++ t2, ?_⟩
      rw [ht2]
      simp only [ht1, List.append_assoc]

/-- `assignStep` writes only at its own cell. -/
theorem dval_assignStep_ne (vs : DVals) (a c : Int × Int) (value : Int)
    (h1 : 0 ≤ c.1) (h2 : 0 ≤ c.2) (hne : c ≠ a) :
    dval (assignStep vs a value) c = dval vs c := by
  unfold assignStep
  cases hva : dval vs a with
  | none => rfl
  | some old =>
    show dval (if old ≥ value + 1 then dset vs a (some (value + 1)) else vs) c
      = dval vs c
    by_cases hge : old ≥ value + 1
    · rw [if_pos hge, dval_dset_ne _ _ _ _ h1 h2 hne]
    · rw [if_neg hge]

/-- `assignStep` never overwrites a 0 when the running value is
non-negative: the guard demands `old ≥ value + 1 ≥ 1`. -/
theorem dval_assignStep_zero (vs : DVals) (a c : Int × Int) (value : Int)
    (h1 : 0 ≤ c.1) (h2 : 0 ≤ c.2) (hv : 0 ≤ value) (h0 : dval vs c = some 0) :
    dval (assignStep vs a value) c = some 0 := by
  by_cases hac : a = c
  · subst hac
    unfold assignStep
    rw [h0]
    show dval (if (0 : Int) ≥ value + 1 then dset vs a (some (value + 1)) else vs) a
      = some 0
    rw [if_neg (by omega : ¬ (0 : Int) ≥ value + 1)]
    exact h0
  · rw [dval_assignStep_ne vs a c value h1 h2 fun he => hac he.symm]
    exact h0

theorem assignFrontier_val (c : Int × Int) (h1 : 0 ≤ c.1) (h2 : 0 ≤ c.2)
    (value : Int) :
    ∀ (s : List (Int × Int)) (vs : DVals), c ∉ s →
      dval (assignFrontier vs s value) c = dval vs c := by
  intro s
  induction s with
  | nil => intro vs _; rfl
  | cons a rest ih =>
    intro vs h
    have hne : c ≠ a := fun he => h (he ▸ List.mem_cons_self a rest)
    have hnr : c ∉ rest := fun hm => h (List.mem_cons_of_mem a hm)
    simp only [assignFrontier]
    rw [ih _ hnr, dval_assignStep_ne vs a c value h1 h2 hne]

theorem collectNeighbours_val (m : RLMap) (c : Int × Int)
    (h1 : 0 ≤ c.1) (h2 : 0 ≤ c.2) :
    ∀ (ns : List (Int × Int)) (st : DState) (s : List (Int × Int)),
      c ∉ (collectNeighbours m ns st s).1.updatedNow →
      dval (collectNeighbours m ns st s).1.values c = dval st.values c := by
  intro ns
  induction ns with
  | nil => intro st s _; rfl
  | cons n rest ih =>
    intro st s h
    simp only [collectNeighbours] at h ⊢
    by_cases hm : n ∈ st.updatedNow
    · rw [if_pos hm] at h ⊢; exact ih st s h
    · rw [if_neg hm] at h ⊢
      by_cases hig : should_ignore m n = true
      · rw [if_pos hig] at h ⊢
        have hne : c ≠ n := by
          obtain ⟨t, ht⟩ := collectNeighbours_un m rest
            ⟨dset st.values n none, st.updatedNow ++ [n]⟩ s
          rw [ht] at h
          intro he
          exact h (by subst he; simp)
        rw [ih _ s h, dval_dset_ne _ _ _ _ h1 h2 hne]
      · rw [if_neg hig] at h ⊢
        exact ih st _ h

theorem collectFrontier_val (m : RLMap) (c : Int × Int)
    (h1 : 0 ≤ c.1) (h2 : 0 ≤ c.2) :
    ∀ (cells : List (Int × Int)) (st : DState) (s : List (Int × Int)),
      c ∉ (collectFrontier m cells st s).1.updatedNow →
      dval (collectFrontier m cells st s).1.values c = dval st.values c := by
  intro cells
  induction cells with
  | nil => intro st s _; rfl
  | cons c0 rest ih =>
    intro st s h
    simp only [collectFrontier] at h ⊢
    rw [ih _ _ h]
    apply collectNeighbours_val m c h1 h2
    obtain ⟨t, ht⟩ := collectFrontier_un m rest
      (collectNeighbours m (get_neighbour_coordinates m c0) st s).1
      (collectNeighbours m (get_neighbour_coordinates m c0) st s).2
    rw [ht] at h
    exact fun hmem => h (List.mem_append_left t hmem)

theorem breadthFill_val (m : RLMap) (c : Int × Int)
    (h1 : 0 ≤ c.1) (h2 : 0 ≤ c.2) :
    ∀ (fuel : Nat) (st : DState) (filled : List (Int × Int)) (v : Int),
      c ∉ (breadthFill m fuel st filled v).updatedNow →
      dval (breadthFill m fuel st filled v).values c = dval st.values c := by
  intro fuel
  induction fuel with
  | zero => intro st filled v _; rfl
  | succ fuel ih =>
    intro st filled v h
    simp only [breadthFill] at h ⊢
    by_cases hs : (collectFrontier m filled st []).2.isEmpty
    · rw [if_pos hs] at h ⊢
      exact collectFrontier_val m c h1 h2 filled st [] h
    · rw [if_neg hs] at h ⊢
      have hsub : c ∉ (collectFrontier m filled st []).1.updatedNow ++
          (collectFrontier m filled st []).2 := by
        obtain ⟨t, ht⟩ := breadthFill_un m fuel
          { values := assignFrontier (collectFrontier m filled st []).1.values
              (collectFrontier m filled st []).2 v,
            updatedNow := (collectFrontier m filled st []).1.updatedNow ++
              (collectFrontier m filled st []).2 }
          (collectFrontier m filled st []).2 (v + 1)
        rw [ht] at h
        exact fun hmem => h (List.mem_append_left t hmem)
      rw [ih _ _ _ h]
      simp only [List.mem_append, not_or] at hsub
      rw [assignFrontier_val c h1 h2 v _ _ hsub.2]
      exact collectFrontier_val m c h1 h2 filled st [] hsub.1

theorem assignFrontier_zero (c : Int × Int) (h1 : 0 ≤ c.1) (h2 : 0 ≤ c.2)
    (value : Int) (hv : 0 ≤ value) :
    ∀ (s : List (Int × Int)) (vs : DVals), dval vs c = some 0 →
      dval (assignFrontier vs s value) c = some 0 := by
  intro s
  induction s with
  | nil => intro vs h0; exact h0
  | cons a rest ih =>
    intro vs h0
    simp only [assignFrontier]
    exact ih _ (dval_assignStep_zero vs a c value h1 h2 hv h0)

theorem collectNeighbours_zero (m : RLMap) (c : Int × Int)
    (h1 : 0 ≤ c.1) (h2 : 0 ≤ c.2) (hig : should_ignore m c = false) :
    ∀ (ns : List (Int × Int)) (st : DState) (s : List (Int × Int)),
      dval st.values c = some 0 →
      dval (collectNeighbours m ns st s).1.values c = some 0 := by
  intro ns
  induction ns with
  | nil => intro st s h0; exact h0
  | cons n rest ih =>
    intro st s h0
    simp only [collectNeighbours]
    by_cases hm : n ∈ st.updatedNow
    · rw [if_pos hm]; exact ih st s h0
    · rw [if_neg hm]
      by_cases hgn : should_ignore m n = true
      · rw [if_pos hgn]
        have hne : c ≠ n := fun he => by rw [← he, hig] at hgn; cases hgn
        exact ih _ s (by
          rw [dval_dset_ne _ _ _ _ h1 h2 hne]; exact h0)
      · rw [if_neg hgn]
        exact ih st _ h0

theorem collectFrontier_zero (m : RLMap) (c : Int × Int)
    (h1 : 0 ≤ c.1) (h2 : 0 ≤ c.2) (hig : should_ignore m c = false) :
    ∀ (cells : List (Int × Int)) (st : DState) (s : List (Int × Int)),
      dval st.values c = some 0 →
      dval (collectFrontier m cells st s).1.values c = some 0 := by
  intro cells
  induction cells with
  | nil => intro st s h0; exact h0
  | cons c0 rest ih =>
    intro st s h0
    simp only [collectFrontier]
    exact ih _ _ (collectNeighbours_zero m c h1 h2 hig _ st s h0)

theorem breadthFill_zero (m : RLMap) (c : Int × Int)
    (h1 : 0 ≤ c.1) (h2 : 0 ≤ c.2) (hig : should_ignore m c = false) :
    ∀ (fuel : Nat) (st : DState) (filled : List (Int × Int)) (v : Int), 0 ≤ v →
      dval st.values c = some 0 →
      dval (breadthFill m fuel st filled v).values c = some 0 := by
  intro fuel
  induction fuel with
  | zero => intro st filled v _ h0; exact h0
  | succ fuel ih =>
    intro st filled v hv h0
    simp only [breadthFill]
    by_cases hs : (collectFrontier m filled st []).2.isEmpty
    · rw [if_pos hs]
      exact collectFrontier_zero m c h1 h2 hig filled st [] h0
    · rw [if_neg hs]
      exact ih _ _ (v + 1) (by omega)
        (assignFrontier_zero c h1 h2 v hv _ _
          (collectFrontier_zero m c h1 h2 hig filled st [] h0))

/-- After `DijkstraMap.update`, an attractor standing on a non-ignored
in-bounds cell holds the value 0: the breadth-first pass only ever writes
`value + 1 ≥ 1` under the `old ≥ value + 1` guard, so a 0 is never
overwritten, and the sentinel writes only hit ignored cells. -/
theorem dijkstraUpdate_attractor_zero (m : RLMap) (attractors : List Attractor)
    (a : Attractor) (ha : a ∈ attractors) (hin : inBounds m a.location)
    (hig : should_ignore m a.location = false) :
    dval (dijkstraUpdate m attractors).values a.location = some 0 := by
  unfold dijkstraUpdate
  exact breadthFill_zero m a.location hin.1 hin.2.2.1 hig _ _ _ 0 le_rfl
    (zeroFold_mem m attractors a ha hin (initValues m) (gridDims_initValues m))

/-- After `DijkstraMap.update`, a non-ignored in-bounds cell that the
expansion never visits and that carries no attractor keeps its
initialization value 1000. -/
theorem dijkstraUpdate_unreached (m : RLMap) (attractors : List Attractor)
    (c : Int × Int) (hin : inBounds m c) (hig : should_ignore m c = false)
    (hun : c ∉ (dijkstraUpdate m attractors).updatedNow)
    (hattr : ∀ a ∈ attractors, c ≠ a.location) :
    dval (dijkstraUpdate m attractors).values c = some 1000 := by
  unfold dijkstraUpdate at hun ⊢
  rw [breadthFill_val m c hin.1 hin.2.2.1 _ _ _ _ hun]
  rw [zeroFold_ne attractors c hin.1 hin.2.2.1 hattr]
  rw [dval_initValues m c hin]
  simp [hig]

/-! ## Collection phase structural lemmas -/

theorem gridDims_collectNeighbours (m : RLMap) :
    ∀ (ns : List (Int × Int)) (st : DState) (s : List (Int × Int)),
      gridDims m st.values →
      gridDims m (collectNeighbours m ns st s).1.values := by
  intro ns
  induction ns with
  | nil => intro st s h; exact h
  | cons n rest ih =>
    intro st s h
    simp only [collectNeighbours]
    by_cases hm : n ∈ st.updatedNow
    · rw [if_pos hm]; exact ih st s h
    · rw [if_neg hm]
      by_cases hgn : should_ignore m n = true
      · rw [if_pos hgn]
        exact ih _ s (gridDims_dset m st.values n none h)
      · rw [if_neg hgn]; exact ih st _ h

theorem collectNeighbours_keep (m : RLMap) (c : Int × Int)
    (h1 : 0 ≤ c.1) (h2 : 0 ≤ c.2) (hig : should_ignore m c = false) :
    ∀ (ns : List (Int × Int)) (st : DState) (s : List (Int × Int)),
      dval (collectNeighbours m ns st s).1.values c = dval st.values c := by
  intro ns
  induction ns with
  | nil => intro st s; rfl
  | cons n rest ih =>
    intro st s
    simp only [collectNeighbours]
    by_cases hm : n ∈ st.updatedNow
    · rw [if_pos hm]; exact ih st s
    · rw [if_neg hm]
      by_cases hgn : should_ignore m n = true
      · rw [if_pos hgn]
        have hne : c ≠ n := fun he => by rw [← he, hig] at hgn; cases hgn
        rw [ih _ s]
        exact dval_dset_ne _ _ _ _ h1 h2 hne
      · rw [if_neg hgn]; exact ih st _

theorem collectNeighbours_keep_mem (m : RLMap) (c : Int × Int)
    (h1 : 0 ≤ c.1) (h2 : 0 ≤ c.2) :
    ∀ (ns : List (Int × Int)) (st : DState) (s : List (Int × Int)),
      c ∈ st.updatedNow →
      dval (collectNeighbours m ns st s).1.values c = dval st.values c := by
  intro ns
  induction ns with
  | nil => intro st s _; rfl
  | cons n rest ih =>
    intro st s hc
    simp only [collectNeighbours]
    by_cases hm : n ∈ st.updatedNow
    · rw [if_pos hm]; exact ih st s hc
    · rw [if_neg hm]
      by_cases hgn : should_ignore m n = true
      · rw [if_pos hgn]
        have hne : c ≠ n := fun he => hm (he ▸ hc)
        rw [ih _ s (by simp [hc])]
        exact dval_dset_ne _ _ _ _ h1 h2 hne
      · rw [if_neg hgn]; exact ih st _ hc

theorem collectNeighbours_un_props (m : RLMap) :
    ∀ (ns : List (Int × Int)) (st : DState) (s : List (Int × Int)),
      gridDims m st.values → (∀ x ∈ ns, inBounds m x) →
      ∃ t, (collectNeighbours m ns st s).1.updatedNow = st.updatedNow ++ t ∧
        ∀ x ∈ t, should_ignore m x = true ∧ x ∈ ns ∧
          dval (collectNeighbours m ns st s).1.values x = none := by
  intro ns
  induction ns with
  | nil =>
    intro st s _ _
    exact ⟨[], by simp [collectNeighbours], by simp⟩
  | cons n rest ih =>
    intro st s hd hnb
    have hnbr : ∀ x ∈ rest, inBounds m x := fun x hx =>
      hnb x (List.mem_cons_of_mem n hx)
    simp only [collectNeighbours]
    by_cases hm : n ∈ st.updatedNow
    · rw [if_pos hm]
      obtain ⟨t, ht, hp⟩ := ih st s hd hnbr
      exact ⟨t, ht, fun x hx =>
        ⟨(hp x hx).1, List.mem_cons_of_mem n (hp x hx).2.1, (hp x hx).2.2⟩⟩
    · rw [if_neg hm]
      by_cases hgn : should_ignore m n = true
      · rw [if_pos hgn]
        have hnin : inBounds m n := hnb n (List.mem_cons_self n rest)
        obtain ⟨t, ht, hp⟩ := ih ⟨dset st.values n none, st.updatedNow ++ [n]⟩ s
          (gridDims_dset m st.values n none hd) hnbr
        refine ⟨n :: t, by simpa using ht, ?_⟩
        intro x hx
        rcases List.mem_cons.mp hx with rfl | hxt
        · refine ⟨hgn, List.mem_cons_self x rest, ?_⟩
          rw [collectNeighbours_keep_mem m x hnin.1 hnin.2.2.1 rest _ s
            (by simp)]
          exact dval_dset_inb m st.values x none hd hnin
        · exact ⟨(hp x hxt).1, List.mem_cons_of_mem n (hp x hxt).2.1,
            (hp x hxt).2.2⟩
      · rw [if_neg hgn]
        obtain ⟨t, ht, hp⟩ := ih st _ hd hnbr
        exact ⟨t, ht, fun x hx =>
          ⟨(hp x hx).1, List.mem_cons_of_mem n (hp x hx).2.1, (hp x hx).2.2⟩⟩

theorem collectNeighbours_smono (m : RLMap) :
    ∀ (ns : List (Int × Int)) (st : DState) (s : List (Int × Int)),
      ∀ x ∈ s, x ∈ (collectNeighbours m ns st s).2 := by
  intro ns
  induction ns with
  | nil => intro st s x hx; exact hx
  | cons n rest ih =>
    intro st s x hx
    simp only [collectNeighbours]
    by_cases hm : n ∈ st.updatedNow
    · rw [if_pos hm]; exact ih st s x hx
    · rw [if_neg hm]
      by_cases hgn : should_ignore m n = true
      · rw [if_pos hgn]; exact ih _ s x hx
      · rw [if_neg hgn]
        refine ih st _ x ?_
        by_cases hns : n ∈ s
        · rw [if_pos hns]; exact hx
        · rw [if_neg hns]; exact List.mem_append_left _ hx

theorem collectNeighbours_s_props (m : RLMap) :
    ∀ (ns : List (Int × Int)) (st : DState) (s : List (Int × Int)),
      (∀ x ∈ s, should_ignore m x = false ∧ x ∉ st.updatedNow) →
      ∀ x ∈ (collectNeighbours m ns st s).2,
        should_ignore m x = false ∧
          x ∉ (collectNeighbours m ns st s).1.updatedNow ∧ (x ∈ s ∨ x ∈ ns) := by
  intro ns
  induction ns with
  | nil =>
    intro st s hs x hx
    exact ⟨(hs x hx).1, (hs x hx).2, Or.inl hx⟩
  | cons n rest ih =>
    intro st s hs x hx
    simp only [collectNeighbours] at hx ⊢
    by_cases hm : n ∈ st.updatedNow
    · rw [if_pos hm] at hx ⊢
      obtain ⟨ha, hb, hc⟩ := ih st s hs x hx
      exact ⟨ha, hb, hc.imp id (List.mem_cons_of_mem n)⟩
    · rw [if_neg hm] at hx ⊢
      by_cases hgn : should_ignore m n = true
      · rw [if_pos hgn] at hx ⊢
        have hs2 : ∀ y ∈ s, should_ignore m y = false ∧
            y ∉ st.updatedNow ++ [n] := by
          intro y hy
          refine ⟨(hs y hy).1, ?_⟩
          simp only [List.mem_append, List.mem_singleton]
          rintro (h | rfl)
          · exact (hs y hy).2 h
          · rw [(hs y hy).1] at hgn; cases hgn
        obtain ⟨ha, hb, hc⟩ := ih _ s hs2 x hx
        exact ⟨ha, hb, hc.imp id (List.mem_cons_of_mem n)⟩
      · rw [if_neg hgn] at hx ⊢
        have hs2 : ∀ y ∈ (if n ∈ s then s else s ++ [n]),
            should_ignore m y = false ∧ y ∉ st.updatedNow := by
          intro y hy
          by_cases hns : n ∈ s
          · rw [if_pos hns] at hy; exact hs y hy
          · rw [if_neg hns] at hy
            rcases List.mem_append.mp hy with h | h
            · exact hs y h
            · rw [List.mem_singleton] at h
              subst h
              exact ⟨by simpa using hgn, hm⟩
        obtain ⟨ha, hb, hc⟩ := ih st _ hs2 x hx
        refine ⟨ha, hb, ?_⟩
        rcases hc with h | h
        · by_cases hns : n ∈ s
          · rw [if_pos hns] at h; exact Or.inl h
          · rw [if_neg hns] at h
            rcases List.mem_append.mp h with h2 | h2
            · exact Or.inl h2
            · rw [List.mem_singleton] at h2
              exact Or.inr (h2 ▸ List.mem_cons_self n rest)
        · exact Or.inr (List.mem_cons_of_mem n h)

theorem collectNeighbours_s_nodup (m : RLMap) :
    ∀ (ns : List (Int × Int)) (st : DState) (s : List (Int × Int)),
      s.Nodup → (collectNeighbours m ns st s).2.Nodup := by
  intro ns
  induction ns with
  | nil => intro st s h; exact h
  | cons n rest ih =>
    intro st s h
    simp only [collectNeighbours]
    by_cases hm : n ∈ st.updatedNow
    · rw [if_pos hm]; exact ih st s h
    · rw [if_neg hm]
      by_cases hgn : should_ignore m n = true
      · rw [if_pos hgn]; exact ih _ s h
      · rw [if_neg hgn]
        refine ih st _ ?_
        by_cases hns : n ∈ s
        · rw [if_pos hns]; exact h
        · rw [if_neg hns]
          refine h.append (List.nodup_singleton n) ?_
          intro a ha hb
          rw [List.mem_singleton] at hb
          exact hns (hb ▸ ha)

theorem collectNeighbours_un_nodup (m : RLMap) :
    ∀ (ns : List (Int × Int)) (st : DState) (s : List (Int × Int)),
      st.updatedNow.Nodup → (collectNeighbours m ns st s).1.updatedNow.Nodup := by
  intro ns
  induction ns with
  | nil => intro st s h; exact h
  | cons n rest ih =>
    intro st s h
    simp only [collectNeighbours]
    by_cases hm : n ∈ st.updatedNow
    · rw [if_pos hm]; exact ih st s h
    · rw [if_neg hm]
      by_cases hgn : should_ignore m n = true
      · rw [if_pos hgn]
        refine ih _ s ?_
        refine h.append (List.nodup_singleton n) ?_
        intro a ha hb
        rw [List.mem_singleton] at hb
        exact hm (hb ▸ ha)
      · rw [if_neg hgn]; exact ih st _ h

theorem collectNeighbours_coverage (m : RLMap) :
    ∀ (ns : List (Int × Int)) (st : DState) (s : List (Int × Int)),
      ∀ n ∈ ns, n ∈ (collectNeighbours m ns st s).1.updatedNow ∨
        n ∈ (collectNeighbours m ns st s).2 := by
  intro ns
  induction ns with
  | nil => intro st s n hn; cases hn
  | cons n0 rest ih =>
    intro st s n hn
    simp only [collectNeighbours]
    rcases List.mem_cons.mp hn with rfl | hnr
    · by_cases hm : n ∈ st.updatedNow
      · rw [if_pos hm]
        obtain ⟨t, ht⟩ := collectNeighbours_un m rest st s
        exact Or.inl (ht ▸ List.mem_append_left t hm)
      · rw [if_neg hm]
        by_cases hgn : should_ignore m n = true
        · rw [if_pos hgn]
          obtain ⟨t, ht⟩ := collectNeighbours_un m rest
            ⟨dset st.values n none, st.updatedNow ++ [n]⟩ s
          refine Or.inl (ht ▸ List.mem_append_left t ?_)
          simp
        · rw [if_neg hgn]
          refine Or.inr (collectNeighbours_smono m rest st _ n ?_)
          by_cases hns : n ∈ s
          · rw [if_pos hns]; exact hns
          · rw [if_neg hns]; simp
    · by_cases hm : n0 ∈ st.updatedNow
      · rw [if_pos hm]; exact ih st s n hnr
      · rw [if_neg hm]
        by_cases hgn : should_ignore m n0 = true
        · rw [if_pos hgn]; exact ih _ s n hnr
        · rw [if_neg hgn]; exact ih st _ n hnr

theorem gridDims_collectFrontier (m : RLMap) :
    ∀ (cells : List (Int × Int)) (st : DState) (s : List (Int × Int)),
      gridDims m st.values →
      gridDims m (collectFrontier m cells st s).1.values := by
  intro cells
  induction cells with
  | nil => intro st s h; exact h
  | cons c0 rest ih =>
    intro st s h
    simp only [collectFrontier]
    exact ih _ _ (gridDims_collectNeighbours m _ st s h)

theorem collectFrontier_keep (m : RLMap) (c : Int × Int)
    (h1 : 0 ≤ c.1) (h2 : 0 ≤ c.2) (hig : should_ignore m c = false) :
    ∀ (cells : List (Int × Int)) (st : DState) (s : List (Int × Int)),
      dval (collectFrontier m cells st s).1.values c = dval st.values c := by
  intro cells
  induction cells with
  | nil => intro st s; rfl
  | cons c0 rest ih =>
    intro st s
    simp only [collectFrontier]
    rw [ih _ _]
    exact collectNeighbours_keep m c h1 h2 hig _ st s

theorem collectFrontier_keep_mem (m : RLMap) (c : Int × Int)
    (h1 : 0 ≤ c.1) (h2 : 0 ≤ c.2) :
    ∀ (cells : List (Int × Int)) (st : DState) (s : List (Int × Int)),
      c ∈ st.updatedNow →
      dval (collectFrontier m cells st s).1.values c = dval st.values c := by
  intro cells
  induction cells with
  | nil => intro st s _; rfl
  | cons c0 rest ih =>
    intro st s hc
    simp only [collectFrontier]
    obtain ⟨t, ht⟩ := collectNeighbours_un m (get_neighbour_coordinates m c0) st s
    rw [ih _ _ (ht ▸ List.mem_append_left t hc)]
    exact collectNeighbours_keep_mem m c h1 h2 _ st s hc

theorem collectFrontier_un_props (m : RLMap) (hld : layerDims m (m.items "bg")) :
    ∀ (cells : List (Int × Int)) (st : DState) (s : List (Int × Int)),
      gridDims m st.values →
      ∃ t, (collectFrontier m cells st s).1.updatedNow = st.updatedNow ++ t ∧
        ∀ x ∈ t, should_ignore m x = true ∧
          (∃ f ∈ cells, x ∈ get_neighbour_coordinates m f) ∧
          dval (collectFrontier m cells st s).1.values x = none := by
  intro cells
  induction cells with
  | nil =>
    intro st s _
    exact ⟨[], by simp [collectFrontier], by simp⟩
  | cons c0 rest ih =>
    intro st s hd
    have hnb : ∀ x ∈ get_neighbour_coordinates m c0, inBounds m x :=
      fun x hx => nbr_inBounds m hld c0 x hx
    obtain ⟨t1, ht1, hp1⟩ :=
      collectNeighbours_un_props m (get_neighbour_coordinates m c0) st s hd hnb
    simp only [collectFrontier]
    obtain ⟨t2, ht2, hp2⟩ := ih _ _ (gridDims_collectNeighbours m _ st s hd)
    refine ⟨t1 ++ t2, by rw [ht2, ht1, List.append_assoc], ?_⟩
    intro x hx
    rcases List.mem_append.mp hx with hx1 | hx2
    · obtain ⟨hig, hmem, hval⟩ := hp1 x hx1
      have hxin : inBounds m x := hnb x hmem
      refine ⟨hig, ⟨c0, List.mem_cons_self c0 rest, hmem⟩, ?_⟩
      rw [collectFrontier_keep_mem m x hxin.1 hxin.2.2.1 rest _ _
        (ht1 ▸ List.mem_append_right st.updatedNow hx1)]
      exact hval
    · obtain ⟨hig, ⟨f, hf, hmem⟩, hval⟩ := hp2 x hx2
      exact ⟨hig, ⟨f, List.mem_cons_of_mem c0 hf, hmem⟩, hval⟩

theorem collectFrontier_smono (m : RLMap) :
    ∀ (cells : List (Int × Int)) (st : DState) (s : List (Int × Int)),
      ∀ x ∈ s, x ∈ (collectFrontier m cells st s).2 := by
  intro cells
  induction cells with
  | nil => intro st s x hx; exact hx
  | cons c0 rest ih =>
    intro st s x hx
    simp only [collectFrontier]
    exact ih _ _ x (collectNeighbours_smono m _ st s x hx)

theorem collectFrontier_s_props (m : RLMap) :
    ∀ (cells : List (Int × Int)) (st : DState) (s : List (Int × Int)),
      (∀ x ∈ s, should_ignore m x = false ∧ x ∉ st.updatedNow) →
      ∀ x ∈ (collectFrontier m cells st s).2,
        should_ignore m x = false ∧
          x ∉ (collectFrontier m cells st s).1.updatedNow ∧
          (x ∈ s ∨ ∃ f ∈ cells, x ∈ get_neighbour_coordinates m f) := by
  intro cells
  induction cells with
  | nil =>
    intro st s hs x hx
    exact ⟨(hs x hx).1, (hs x hx).2, Or.inl hx⟩
  | cons c0 rest ih =>
    intro st s hs x hx
    simp only [collectFrontier] at hx ⊢
    have hs2 := collectNeighbours_s_props m (get_neighbour_coordinates m c0) st s hs
    have hs3 : ∀ y ∈ (collectNeighbours m (get_neighbour_coordinates m c0) st s).2,
        should_ignore m y = false ∧
          y ∉ (collectNeighbours m (get_neighbour_coordinates m c0) st s).1.updatedNow :=
      fun y hy => ⟨(hs2 y hy).1, (hs2 y hy).2.1⟩
    obtain ⟨ha, hb, hc⟩ := ih _ _ hs3 x hx
    refine ⟨ha, hb, ?_⟩
    rcases hc with h | ⟨f, hf, hmem⟩
    · rcases (hs2 x h).2.2 with h2 | h2
      · exact Or.inl h2
      · exact Or.inr ⟨c0, List.mem_cons_self c0 rest, h2⟩
    · exact Or.inr ⟨f, List.mem_cons_of_mem c0 hf, hmem⟩

theorem collectFrontier_s_nodup (m : RLMap) :
    ∀ (cells : List (Int × Int)) (st : DState) (s : List (Int × Int)),
      s.Nodup → (collectFrontier m cells st s).2.Nodup := by
  intro cells
  induction cells with
  | nil => intro st s h; exact h
  | cons c0 rest ih =>
    intro st s h
    simp only [collectFrontier]
    exact ih _ _ (collectNeighbours_s_nodup m _ st s h)

theorem collectFrontier_un_nodup (m : RLMap) :
    ∀ (cells : List (Int × Int)) (st : DState) (s : List (Int × Int)),
      st.updatedNow.Nodup → (collectFrontier m cells st s).1.updatedNow.Nodup := by
  intro cells
  induction cells with
  | nil => intro st s h; exact h
  | cons c0 rest ih =>
    intro st s h
    simp only [collectFrontier]
    exact ih _ _ (collectNeighbours_un_nodup m _ st s h)

theorem collectFrontier_coverage (m : RLMap) :
    ∀ (cells : List (Int × Int)) (st : DState) (s : List (Int × Int)),
      ∀ f ∈ cells, ∀ n ∈ get_neighbour_coordinates m f,
        n ∈ (collectFrontier m cells st s).1.updatedNow ∨
          n ∈ (collectFrontier m cells st s).2 := by
  intro cells
  induction cells with
  | nil => intro st s f hf; cases hf
  | cons c0 rest ih =>
    intro st s f hf n hn
    simp only [collectFrontier]
    rcases List.mem_cons.mp hf with rfl | hfr
    · rcases collectNeighbours_coverage m (get_neighbour_coordinates m f) st s n hn
        with h | h
      · obtain ⟨t, ht⟩ := collectFrontier_un m rest
          (collectNeighbours m (get_neighbour_coordinates m f) st s).1
          (collectNeighbours m (get_neighbour_coordinates m f) st s).2
        exact Or.inl (ht ▸ List.mem_append_left t h)
      · exact Or.inr (collectFrontier_smono m rest _ _ n h)
    · exact ih _ _ f hfr n hn

/-! ## Assignment phase structural lemmas -/

theorem gridDims_assignStep (m : RLMap) (vs : DVals) (c : Int × Int) (value : Int)
    (h : gridDims m vs) : gridDims m (assignStep vs c value) := by
  unfold assignStep
  cases hv : dval vs c with
  | none => exact h
  | some old =>
    show gridDims m (if old ≥ value + 1 then dset vs c (some (value + 1)) else vs)
    by_cases hge : old ≥ value + 1
    · rw [if_pos hge]; exact gridDims_dset m vs c _ h
    · rw [if_neg hge]; exact h

theorem gridDims_assignFrontier (m : RLMap) (value : Int) :
    ∀ (s : List (Int × Int)) (vs : DVals), gridDims m vs →
      gridDims m (assignFrontier vs s value) := by
  intro s
  induction s with
  | nil => intro vs h; exact h
  | cons a rest ih =>
    intro vs h
    simp only [assignFrontier]
    exact ih _ (gridDims_assignStep m vs a value h)

/-- An untouched 1000-cell of the frontier is assigned `value + 1`, the
initialization value 1000 being large enough to pass the overwrite
guard. -/
theorem assignFrontier_write (m : RLMap) (value : Int) :
    ∀ (s : List (Int × Int)) (vs : DVals) (u : Int × Int),
      s.Nodup → u ∈ s → gridDims m vs → inBounds m u →
      dval vs u = some 1000 → value + 1 ≤ 1000 →
      dval (assignFrontier vs s value) u = some (value + 1) := by
  intro s
  induction s with
  | nil => intro vs u _ hu; cases hu
  | cons a rest ih =>
    intro vs u hnd hu hd hin h1000 hcap
    simp only [assignFrontier]
    rcases List.mem_cons.mp hu with rfl | hur
    · have hstep : dval (assignStep vs u value) u = some (value + 1) := by
        unfold assignStep
        rw [h1000]
        show dval (if (1000 : Int) ≥ value + 1 then dset vs u (some (value + 1))
          else vs) u = some (value + 1)
        rw [if_pos (by omega)]
        exact dval_dset_inb m vs u _ hd hin
      rw [assignFrontier_val u hin.1 hin.2.2.1 value rest _
        (List.nodup_cons.mp hnd).1]
      exact hstep
    · have hne : u ≠ a := by
        intro he
        subst he
        exact (List.nodup_cons.mp hnd).1 hur
      refine ih _ u (List.nodup_cons.mp hnd).2 hur
        (gridDims_assignStep m vs a value hd) hin ?_ hcap
      rw [dval_assignStep_ne vs a u value hin.1 hin.2.2.1 hne]
      exact h1000

/-- The minimum of an integer list is any member below all members. -/
theorem int_min?_eq_some (l : List Int) (x : Int) (hx : x ∈ l)
    (hle : ∀ y ∈ l, x ≤ y) : l.min? = some x := by
  haveI : Std.Antisymm ((· : Int) ≤ ·) :=
    ⟨fun h1 h2 => le_antisymm h1 h2⟩
  exact (List.min?_eq_some_iff (fun a : Int => le_refl a)
    (fun a b => min_choice a b) (fun _ _ _ => le_min_iff)).mpr ⟨hx, hle⟩

/-- Membership in the visited-neighbour value list. -/
theorem mem_visitedNbrVals (m : RLMap) (vs : DVals) (un : List (Int × Int))
    (c : Int × Int) (y : Int) :
    y ∈ visitedNbrVals m vs un c ↔
      ∃ n ∈ get_neighbour_coordinates m c, n ∈ un ∧ dval vs n = some y := by
  unfold visitedNbrVals
  rw [List.mem_filterMap]
  constructor
  · rintro ⟨n, hn, hy⟩
    have hy2 : (if n ∈ un then dval vs n else none) = some y := hy
    by_cases hnu : n ∈ un
    · rw [if_pos hnu] at hy2
      exact ⟨n, hn, hnu, hy2⟩
    · rw [if_neg hnu] at hy2
      exact Option.noConfusion hy2
  · rintro ⟨n, hn, hnu, hy⟩
    refine ⟨n, hn, ?_⟩
    have hy2 : (if n ∈ un then dval vs n else none) = some y := by
      rw [if_pos hnu]
      exact hy
    exact hy2

/-- When the collection phase returns an empty next frontier the fill is
complete: every visited passable non-attractor cell of the resulting
state holds one more than the minimum among its visited neighbours'
values. -/
theorem BFInv_final (m : RLMap) (L : List (Int × Int))
    (hld : layerDims m (m.items "bg"))
    (st : DState) (filled : List (Int × Int)) (value : Int)
    (hinv : BFInv m L st filled value)
    (hs : (collectFrontier m filled st []).2 = []) :
    ∀ c ∈ (collectFrontier m filled st []).1.updatedNow,
      should_ignore m c = false → c ∉ L →
      localMinProp m (collectFrontier m filled st []).1 c := by
  intro c hc hig hcL
  obtain ⟨T, hT, hTprops⟩ :=
    collectFrontier_un_props m hld filled st [] hinv.hdims
  have hcst : c ∈ st.updatedNow := by
    rw [hT] at hc
    rcases List.mem_append.mp hc with h | h
    · exact h
    · rw [(hTprops c h).1] at hig
      cases hig
  have hcin : inBounds m c := hinv.hunb c hcst
  obtain ⟨j, hjval, hj1, hjv, ⟨n0, hn0nbr, hn0mem, hn0val⟩, hbnd⟩ :=
    hinv.hvisVal c hcst hig hcL
  have hcval : dval (collectFrontier m filled st []).1.values c = some j := by
    rw [collectFrontier_keep_mem m c hcin.1 hcin.2.2.1 filled st [] hcst]
    exact hjval
  have hn0in : inBounds m n0 := nbr_inBounds m hld c n0 hn0nbr
  have hn0un : n0 ∈ (collectFrontier m filled st []).1.updatedNow := by
    by_cases hcf : c ∈ filled
    · rcases collectFrontier_coverage m filled st [] c hcf n0 hn0nbr with h | h
      · exact h
      · rw [hs] at h
        cases h
    · rw [hT]
      exact List.mem_append_left T (hinv.hclosed c hcst hig hcf n0 hn0nbr)
  have hn0fin : dval (collectFrontier m filled st []).1.values n0
      = some (j - 1) := by
    rcases hn0mem with h | h
    · rw [collectFrontier_keep_mem m n0 hn0in.1 hn0in.2.2.1 filled st [] h]
      exact hn0val
    · rw [collectFrontier_keep m n0 hn0in.1 hn0in.2.2.1 (hinv.hLb n0 h).2
        filled st []]
      exact hn0val
  unfold localMinProp
  refine ⟨j - 1, ?_, ?_⟩
  · refine int_min?_eq_some _ _ ?_ ?_
    · exact (mem_visitedNbrVals m _ _ c (j - 1)).mpr ⟨n0, hn0nbr, hn0un, hn0fin⟩
    · intro y hy
      obtain ⟨n, hnnbr, hnun, hny⟩ := (mem_visitedNbrVals m _ _ c y).mp hy
      have hnin : inBounds m n := nbr_inBounds m hld c n hnnbr
      rw [hT] at hnun
      rcases List.mem_append.mp hnun with h | h
      · rw [collectFrontier_keep_mem m n hnin.1 hnin.2.2.1 filled st [] h]
          at hny
        have := hbnd n hnnbr (Or.inl h) y hny
        omega
      · rw [(hTprops n h).2.2] at hny
        exact Option.noConfusion hny
  · rw [hcval]
    congr 1
    omega

/-- One round of `_breadth_fill` with a nonempty next frontier preserves
the invariant: the newly collected cells are appended to the visited set,
written to `value + 1`, and become the next frontier. -/
theorem BFInv_step (m : RLMap) (L : List (Int × Int))
    (hld : layerDims m (m.items "bg")) (hsize : m.size.1 * m.size.2 ≤ 1000)
    (st : DState) (filled : List (Int × Int)) (value : Int) (st2 : DState)
    (hst2v : st2.values =
      assignFrontier (collectFrontier m filled st []).1.values
        (collectFrontier m filled st []).2 value)
    (hst2u : st2.updatedNow =
      (collectFrontier m filled st []).1.updatedNow ++
        (collectFrontier m filled st []).2)
    (hinv : BFInv m L st filled value)
    (hne : (collectFrontier m filled st []).2 ≠ []) :
    BFInv m L st2 (collectFrontier m filled st []).2 (value + 1) := by
  obtain ⟨hv0, hdims, hnodup, hunb, hvlen, hLb, hfreshL, hfresh, hfill,
    hfillmem, hLfill, hvisNone, hvisVal, hclosed, hclosedL⟩ := hinv
  obtain ⟨T, hT, hTprops⟩ :=
    collectFrontier_un_props m hld filled st [] hdims
  have hsprops := collectFrontier_s_props m filled st [] (by simp)
  have hsig : ∀ x ∈ (collectFrontier m filled st []).2,
      should_ignore m x = false := fun x hx => (hsprops x hx).1
  have hsnotun1 : ∀ x ∈ (collectFrontier m filled st []).2,
      x ∉ (collectFrontier m filled st []).1.updatedNow :=
    fun x hx => (hsprops x hx).2.1
  have hsorigin : ∀ x ∈ (collectFrontier m filled st []).2,
      ∃ f ∈ filled, x ∈ get_neighbour_coordinates m f := by
    intro x hx
    rcases (hsprops x hx).2.2 with h | h
    · cases h
    · exact h
  have hsnotst : ∀ x ∈ (collectFrontier m filled st []).2,
      x ∉ st.updatedNow := by
    intro x hx hmem
    exact hsnotun1 x hx (hT ▸ List.mem_append_left T hmem)
  have hsinb : ∀ x ∈ (collectFrontier m filled st []).2, inBounds m x := by
    intro x hx
    obtain ⟨f, _, hnbr⟩ := hsorigin x hx
    exact nbr_inBounds m hld f x hnbr
  have hsnodup : (collectFrontier m filled st []).2.Nodup :=
    collectFrontier_s_nodup m filled st [] List.nodup_nil
  have hunnodup : (collectFrontier m filled st []).1.updatedNow.Nodup :=
    collectFrontier_un_nodup m filled st [] hnodup
  have huninb : ∀ u ∈ (collectFrontier m filled st []).1.updatedNow,
      inBounds m u := by
    intro u hu
    rw [hT] at hu
    rcases List.mem_append.mp hu with h | h
    · exact hunb u h
    · obtain ⟨f, _, hnbr⟩ := (hTprops u h).2.1
      exact nbr_inBounds m hld f u hnbr
  have hdims1 : gridDims m (collectFrontier m filled st []).1.values :=
    gridDims_collectFrontier m filled st [] hdims
  have hcap : value + 1 ≤ 1000 := by
    have h1 : st.updatedNow.length ≤ (allCells m).length :=
      length_le_allCells m st.updatedNow hnodup hunb
    have h2 := length_allCells m
    omega
  have hunsplit : ∀ u, u ∈ (collectFrontier m filled st []).1.updatedNow ++
      (collectFrontier m filled st []).2 →
      u ∈ st.updatedNow ∨ u ∈ T ∨ u ∈ (collectFrontier m filled st []).2 := by
    intro u hu
    rcases List.mem_append.mp hu with h | h
    · rw [hT] at h
      rcases List.mem_append.mp h with h2 | h2
      · exact Or.inl h2
      · exact Or.inr (Or.inl h2)
    · exact Or.inr (Or.inr h)
  have hkeep : ∀ c : Int × Int, 0 ≤ c.1 → 0 ≤ c.2 →
      should_ignore m c = false → c ∉ (collectFrontier m filled st []).2 →
      dval (assignFrontier (collectFrontier m filled st []).1.values
        (collectFrontier m filled st []).2 value) c = dval st.values c := by
    intro c h1 h2 hig hcs
    rw [assignFrontier_val c h1 h2 value _ _ hcs]
    exact collectFrontier_keep m c h1 h2 hig filled st []
  have hkeepm : ∀ c : Int × Int, 0 ≤ c.1 → 0 ≤ c.2 → c ∈ st.updatedNow →
      dval (assignFrontier (collectFrontier m filled st []).1.values
        (collectFrontier m filled st []).2 value) c = dval st.values c := by
    intro c h1 h2 hcm
    rw [assignFrontier_val c h1 h2 value _ _ (fun hx => hsnotst c hx hcm)]
    exact collectFrontier_keep_mem m c h1 h2 filled st [] hcm
  have hfreshL2 : ∀ a ∈ L,
      dval (assignFrontier (collectFrontier m filled st []).1.values
        (collectFrontier m filled st []).2 value) a = some 0 := by
    intro a haL
    have hain := (hLb a haL).1
    refine assignFrontier_zero a hain.1 hain.2.2.1 value hv0 _ _ ?_
    rw [collectFrontier_keep m a hain.1 hain.2.2.1 (hLb a haL).2 filled st []]
    exact hfreshL a haL
  have hTnone : ∀ x ∈ T,
      dval (assignFrontier (collectFrontier m filled st []).1.values
        (collectFrontier m filled st []).2 value) x = none := by
    intro x hx
    have hxs : x ∉ (collectFrontier m filled st []).2 := by
      intro hmem
      have h1 := (hTprops x hx).1
      rw [hsig x hmem] at h1
      cases h1
    obtain ⟨f, _, hnbr⟩ := (hTprops x hx).2.1
    have hxin : inBounds m x := nbr_inBounds m hld f x hnbr
    rw [assignFrontier_val x hxin.1 hxin.2.2.1 value _ _ hxs]
    exact (hTprops x hx).2.2
  have hwrite : ∀ u ∈ (collectFrontier m filled st []).2, u ∉ L →
      dval (assignFrontier (collectFrontier m filled st []).1.values
        (collectFrontier m filled st []).2 value) u = some (value + 1) := by
    intro u hu huL
    have hin := hsinb u hu
    refine assignFrontier_write m value _ _ u hsnodup hu hdims1 hin ?_ hcap
    rw [collectFrontier_keep m u hin.1 hin.2.2.1 (hsig u hu) filled st []]
    exact hfresh u hin (hsig u hu) (hsnotst u hu) huL
  refine ⟨by omega, ?_, ?_, ?_, ?_, hLb, ?_, ?_, ?_, ?_, ?_, ?_, ?_, ?_, ?_⟩
  · rw [hst2v]
    exact gridDims_assignFrontier m value _ _ hdims1
  · rw [hst2u]
    refine hunnodup.append hsnodup ?_
    intro a ha hb
    exact hsnotun1 a hb ha
  · intro u hu
    rw [hst2u] at hu
    rcases List.mem_append.mp hu with h | h
    · exact huninb u h
    · exact hsinb u h
  · rw [hst2u, List.length_append]
    have h1 : st.updatedNow.length ≤
        (collectFrontier m filled st []).1.updatedNow.length := by
      rw [hT, List.length_append]
      omega
    have h2 : 0 < (collectFrontier m filled st []).2.length :=
      List.length_pos.mpr hne
    push_cast
    omega
  · intro a haL
    rw [hst2v]
    exact hfreshL2 a haL
  · intro c2 hcin hcig hcun hcL
    rw [hst2u] at hcun
    rw [hst2v]
    have hcs : c2 ∉ (collectFrontier m filled st []).2 :=
      fun hx => hcun (List.mem_append_right _ hx)
    rw [hkeep c2 hcin.1 hcin.2.2.1 hcig hcs]
    refine hfresh c2 hcin hcig ?_ hcL
    intro hmem
    exact hcun (List.mem_append_left _ (hT ▸ List.mem_append_left T hmem))
  · intro f hf
    rw [hst2v]
    refine ⟨hsig f hf, hsinb f hf, ?_⟩
    by_cases hfL : f ∈ L
    · exact Or.inr hfL
    · exact Or.inl (hwrite f hf hfL)
  · intro f hf
    rw [hst2u]
    exact Or.inl (List.mem_append_right _ hf)
  · intro hval
    exact absurd hval (by omega)
  · intro u hu huig
    rw [hst2u] at hu
    rw [hst2v]
    rcases hunsplit u hu with h | h | h
    · rw [hkeepm u (hunb u h).1 (hunb u h).2.2.1 h]
      exact hvisNone u h huig
    · exact hTnone u h
    · rw [hsig u h] at huig
      cases huig
  · intro u hu huig huL
    rw [hst2u] at hu
    rw [hst2v, hst2u]
    rcases hunsplit u hu with hus | hut | hus2
    · obtain ⟨j, hjval, hj1, hjv, ⟨n0, hn0nbr, hn0mem, hn0val⟩, hbnd⟩ :=
        hvisVal u hus huig huL
      have huin := hunb u hus
      refine ⟨j, ?_, hj1, by omega, ?_, ?_⟩
      · rw [hkeepm u huin.1 huin.2.2.1 hus]
        exact hjval
      · have hn0in : inBounds m n0 := nbr_inBounds m hld u n0 hn0nbr
        refine ⟨n0, hn0nbr, ?_, ?_⟩
        · rcases hn0mem with h | h
          · exact Or.inl (List.mem_append_left _
              (hT ▸ List.mem_append_left T h))
          · exact Or.inr h
        · rcases hn0mem with h | h
          · rw [hkeepm n0 hn0in.1 hn0in.2.2.1 h]
            exact hn0val
          · have h0 : dval st.values n0 = some 0 := hfreshL n0 h
            rw [hn0val] at h0
            have hj0 : j - 1 = 0 := Option.some.inj h0
            rw [hj0]
            exact hfreshL2 n0 h
      · intro n hnnbr hnmem i hni
        have hnin : inBounds m n := nbr_inBounds m hld u n hnnbr
        by_cases hnL : n ∈ L
        · have h0 := hfreshL2 n hnL
          rw [hni] at h0
          have hi0 : i = 0 := Option.some.inj h0
          have hb1 := hbnd n hnnbr (Or.inr hnL) 0 (hfreshL n hnL)
          omega
        · rcases List.mem_append.mp (hnmem.resolve_right hnL) with h | h
          · rw [hT] at h
            rcases List.mem_append.mp h with h2 | h2
            · rw [hkeepm n hnin.1 hnin.2.2.1 h2] at hni
              have := hbnd n hnnbr (Or.inl h2) i hni
              omega
            · rw [hTnone n h2] at hni
              exact Option.noConfusion hni
          · rw [hwrite n h hnL] at hni
            have hi := Option.some.inj hni
            omega
    · exact absurd (hTprops u hut).1 (by simp [huig])
    · have hm1 : value + 1 - 1 = value := by omega
      have huin := hsinb u hus2
      refine ⟨value + 1, hwrite u hus2 huL, by omega, le_refl _, ?_, ?_⟩
      · obtain ⟨f, hffill, hfnbr⟩ := hsorigin u hus2
        have hfin := (hfill f hffill).2.1
        have hfnbr2 : f ∈ get_neighbour_coordinates m u :=
          nbr_symm m hld f u hfnbr hfin
        rcases (hfill f hffill).2.2 with hfv | hfL
        · rcases hfillmem f hffill with hfst | hfL2
          · refine ⟨f, hfnbr2, Or.inl (List.mem_append_left _
              (hT ▸ List.mem_append_left T hfst)), ?_⟩
            rw [hm1, hkeepm f hfin.1 hfin.2.2.1 hfst]
            exact hfv
          · have h0 : dval st.values f = some 0 := hfreshL f hfL2
            rw [hfv] at h0
            have hv00 : value = 0 := Option.some.inj h0
            refine ⟨f, hfnbr2, Or.inr hfL2, ?_⟩
            rw [hm1]
            have h2 := hfreshL2 f hfL2
            rw [← hv00] at h2
            exact h2
        · by_cases hv1 : 1 ≤ value
          · exact absurd (hclosedL hv1 f hfL u hfnbr) (hsnotst u hus2)
          · have hv00 : value = 0 := by omega
            refine ⟨f, hfnbr2, Or.inr hfL, ?_⟩
            rw [hm1]
            have h2 := hfreshL2 f hfL
            rw [← hv00] at h2
            exact h2
      · intro n hnnbr hnmem i hni
        have hnin : inBounds m n := nbr_inBounds m hld u n hnnbr
        by_cases hnL : n ∈ L
        · have h0 := hfreshL2 n hnL
          rw [hni] at h0
          have hi0 : i = 0 := Option.some.inj h0
          by_cases hv1 : 1 ≤ value
          · exact absurd (hclosedL hv1 n hnL u
              (nbr_symm m hld u n hnnbr huin)) (hsnotst u hus2)
          · omega
        · rcases List.mem_append.mp (hnmem.resolve_right hnL) with h | h
          · rw [hT] at h
            rcases List.mem_append.mp h with h2 | h2
            · rw [hkeepm n hnin.1 hnin.2.2.1 h2] at hni
              by_cases hnig : should_ignore m n = true
              · rw [hvisNone n h2 hnig] at hni
                exact Option.noConfusion hni
              · have hnig2 : should_ignore m n = false := by
                  simpa using hnig
                by_cases hnf : n ∈ filled
                · rcases (hfill n hnf).2.2 with hnv | hnv
                  · rw [hnv] at hni
                    have := Option.some.inj hni
                    omega
                  · exact absurd hnv hnL
                · exact absurd (hclosed n h2 hnig2 hnf u
                    (nbr_symm m hld u n hnnbr huin)) (hsnotst u hus2)
            · rw [hTnone n h2] at hni
              exact Option.noConfusion hni
          · rw [hwrite n h hnL] at hni
            have := Option.some.inj hni
            omega
  · intro u hu huig hunf n hnnbr
    rw [hst2u] at hu
    rw [hst2u]
    rcases hunsplit u hu with hus | hut | hus2
    · by_cases huf : u ∈ filled
      · rcases collectFrontier_coverage m filled st [] u huf n hnnbr with h | h
        · exact List.mem_append_left _ h
        · exact List.mem_append_right _ h
      · refine List.mem_append_left _ ?_
        rw [hT]
        exact List.mem_append_left T (hclosed u hus huig huf n hnnbr)
    · exact absurd (hTprops u hut).1 (by simp [huig])
    · exact absurd hus2 hunf
  · intro hval a haL n hnnbr
    rw [hst2u]
    by_cases hv1 : 1 ≤ value
    · refine List.mem_append_left _ ?_
      rw [hT]
      exact List.mem_append_left T (hclosedL hv1 a haL n hnnbr)
    · have hv00 : value = 0 := by omega
      have haf : a ∈ filled := hLfill hv00 a haL
      rcases collectFrontier_coverage m filled st [] a haf n hnnbr with h | h
      · exact List.mem_append_left _ h
      · exact List.mem_append_right _ h

/-- The main induction over `_breadth_fill`: from any invariant-satisfying
state, with enough fuel to exhaust the map, the fill ends in a state in
which every visited passable non-attractor cell holds one more than the
minimum among its visited neighbours' values. -/
theorem breadthFill_localmin (m : RLMap) (L : List (Int × Int))
    (hld : layerDims m (m.items "bg")) (hsize : m.size.1 * m.size.2 ≤ 1000) :
    ∀ (fuel : Nat) (st : DState) (filled : List (Int × Int)) (value : Int),
      BFInv m L st filled value →
      ((allCells m).length : Int) < (st.updatedNow.length : Int) + (fuel : Int) →
      ∀ c ∈ (breadthFill m fuel st filled value).updatedNow,
        should_ignore m c = false → c ∉ L →
        localMinProp m (breadthFill m fuel st filled value) c := by
  intro fuel
  induction fuel with
  | zero =>
    intro st filled value hinv hfuel
    have h1 : st.updatedNow.length ≤ (allCells m).length :=
      length_le_allCells m st.updatedNow hinv.hnodup hinv.hunb
    exact absurd hfuel (by push_cast; omega)
  | succ fuel ih =>
    intro st filled value hinv hfuel
    simp only [breadthFill]
    by_cases hs : (collectFrontier m filled st []).2.isEmpty
    · rw [if_pos hs]
      have hsnil : (collectFrontier m filled st []).2 = [] := by
        cases hcf : (collectFrontier m filled st []).2 with
        | nil => rfl
        | cons a l =>
          rw [hcf] at hs
          simp at hs
      exact BFInv_final m L hld st filled value hinv hsnil
    · rw [if_neg hs]
      have hsne : (collectFrontier m filled st []).2 ≠ [] := by
        intro h
        rw [h] at hs
        exact hs rfl
      have hstep := BFInv_step m L hld hsize st filled value
        ⟨assignFrontier (collectFrontier m filled st []).1.values
          (collectFrontier m filled st []).2 value,
         (collectFrontier m filled st []).1.updatedNow ++
          (collectFrontier m filled st []).2⟩ rfl rfl hinv hsne
      refine ih ⟨assignFrontier (collectFrontier m filled st []).1.values
          (collectFrontier m filled st []).2 value,
         (collectFrontier m filled st []).1.updatedNow ++
          (collectFrontier m filled st []).2⟩
        (collectFrontier m filled st []).2 (value + 1) hstep ?_
      show ((allCells m).length : Int) <
        ((((collectFrontier m filled st []).1.updatedNow ++
          (collectFrontier m filled st []).2).length : Int)) + (fuel : Int)
      rw [List.length_append]
      have h1 : st.updatedNow.length ≤
          (collectFrontier m filled st []).1.updatedNow.length := by
        obtain ⟨t, ht⟩ := collectFrontier_un m filled st []
        rw [ht, List.length_append]
        omega
      have h2 : 0 < (collectFrontier m filled st []).2.length :=
        List.length_pos.mpr hsne
      push_cast
      push_cast at hfuel
      omega

/-- Membership in the collected attractor-location list. -/
theorem mem_attractorLocs (attractors : List Attractor) (x : Int × Int) :
    x ∈ attractorLocs attractors ↔ ∃ a ∈ attractors, a.location = x := by
  have aux : ∀ (l : List Attractor) (acc : List (Int × Int)) (y : Int × Int),
      (y ∈ l.foldl (fun acc2 a => if a.location ∈ acc2 then acc2
          else acc2 ++ [a.location]) acc ↔
        y ∈ acc ∨ ∃ a ∈ l, a.location = y) := by
    intro l
    induction l with
    | nil =>
      intro acc y
      simp
    | cons b rest ih =>
      intro acc y
      simp only [List.foldl_cons]
      by_cases hb : b.location ∈ acc
      · rw [if_pos hb, ih acc y]
        constructor
        · rintro (h | ⟨a, ha, he⟩)
          · exact Or.inl h
          · exact Or.inr ⟨a, List.mem_cons_of_mem b ha, he⟩
        · rintro (h | ⟨a, ha, he⟩)
          · exact Or.inl h
          · rcases List.mem_cons.mp ha with rfl | ha2
            · exact Or.inl (he ▸ hb)
            · exact Or.inr ⟨a, ha2, he⟩
      · rw [if_neg hb, ih (acc ++ [b.location]) y]
        simp only [List.mem_append, List.mem_singleton]
        constructor
        · rintro ((h | h) | ⟨a, ha, he⟩)
          · exact Or.inl h
          · exact Or.inr ⟨b, List.mem_cons_self b rest, h.symm⟩
          · exact Or.inr ⟨a, List.mem_cons_of_mem b ha, he⟩
        · rintro (h | ⟨a, ha, he⟩)
          · exact Or.inl (Or.inl h)
          · rcases List.mem_cons.mp ha with rfl | ha2
            · exact Or.inl (Or.inr he.symm)
            · exact Or.inr ⟨a, ha2, he⟩
  unfold attractorLocs
  rw [aux attractors [] x]
  simp

/-- A nonempty list has a last element. -/
theorem getLastSome_of_ne_nil {α : Type} :
    ∀ (l : List α), l ≠ [] → ∃ a, l.getLast? = some a := by
  intro l
  induction l with
  | nil =>
    intro h
    exact absurd rfl h
  | cons b rest ih =>
    intro _
    cases rest with
    | nil => exact ⟨b, rfl⟩
    | cons c rest2 =>
      obtain ⟨a, ha⟩ := ih (by simp)
      exact ⟨a, ha⟩

/-- The last element of a list is a member. -/
theorem getLastSome_mem {α : Type} :
    ∀ (l : List α) (a : α), l.getLast? = some a → a ∈ l := by
  intro l
  induction l with
  | nil =>
    intro a h
    exact Option.noConfusion h
  | cons b rest ih =>
    intro a h
    cases rest with
    | nil =>
      have hba : b = a := Option.some.inj h
      rw [← hba]
      exact List.mem_cons_self b []
    | cons c rest2 =>
      exact List.mem_cons_of_mem b (ih a h)

/-- After a full rebuild of a well-formed map, every visited passable
non-attractor cell holds one more than the minimum among the values of
its visited 8-neighbours.  The map's background layer has the declared
dimensions, the cell count does not exceed the 1000 initialization value
(the source initializes with "1000, ie a value guaranteed to be more
than any distance on map"), and every attractor stands on a passable
in-bounds tile. -/
theorem dijkstraUpdate_localmin (m : RLMap) (attractors : List Attractor)
    (hld : layerDims m (m.items "bg")) (hsize : m.size.1 * m.size.2 ≤ 1000)
    (hattr : ∀ a ∈ attractors, inBounds m a.location ∧
      should_ignore m a.location = false) :
    ∀ c ∈ (dijkstraUpdate m attractors).updatedNow,
      should_ignore m c = false → c ∉ attractorLocs attractors →
      localMinProp m (dijkstraUpdate m attractors) c := by
  by_cases hA : attractors = []
  · subst hA
    intro c hc
    have hun : (dijkstraUpdate m []).updatedNow = [] := rfl
    rw [hun] at hc
    cases hc
  · obtain ⟨a0, hA0⟩ := getLastSome_of_ne_nil attractors hA
    have ha0mem : a0 ∈ attractors := getLastSome_mem attractors a0 hA0
    have hLprop : ∀ x ∈ attractorLocs attractors,
        inBounds m x ∧ should_ignore m x = false := by
      intro x hx
      obtain ⟨a, ha, he⟩ := (mem_attractorLocs attractors x).mp hx
      exact he ▸ hattr a ha
    have ha0L : a0.location ∈ attractorLocs attractors :=
      (mem_attractorLocs attractors a0.location).mpr ⟨a0, ha0mem, rfl⟩
    have hdims0 : gridDims m (zeroFold attractors (initValues m)) :=
      gridDims_zeroFold m attractors (initValues m) (gridDims_initValues m)
    have hinv : BFInv m (attractorLocs attractors)
        ⟨zeroFold attractors (initValues m), [a0.location]⟩
        (attractorLocs attractors) 0 := by
      refine ⟨le_refl 0, hdims0, List.nodup_singleton _, ?_, ?_, hLprop, ?_,
        ?_, ?_, ?_, ?_, ?_, ?_, ?_, ?_⟩
      · intro u hu
        have hu2 : u = a0.location := by simpa using hu
        rw [hu2]
        exact (hattr a0 ha0mem).1
      · simp
      · intro x hx
        obtain ⟨a, ha, he⟩ := (mem_attractorLocs attractors x).mp hx
        rw [← he]
        exact zeroFold_mem m attractors a ha (hattr a ha).1 (initValues m)
          (gridDims_initValues m)
      · intro c2 hcin hcig _ hcl
        have hne2 : ∀ a ∈ attractors, c2 ≠ a.location := by
          intro a ha he
          exact hcl ((mem_attractorLocs attractors c2).mpr ⟨a, ha, he.symm⟩)
        rw [zeroFold_ne attractors c2 hcin.1 hcin.2.2.1 hne2]
        rw [dval_initValues m c2 hcin]
        simp [hcig]
      · intro f hf
        exact ⟨(hLprop f hf).2, (hLprop f hf).1, Or.inr hf⟩
      · intro f hf
        exact Or.inr hf
      · intro _ a ha
        exact ha
      · intro u hu hutig
        have hu2 : u = a0.location := by simpa using hu
        rw [hu2, (hattr a0 ha0mem).2] at hutig
        cases hutig
      · intro u hu _ huL
        have hu2 : u = a0.location := by simpa using hu
        exact absurd (hu2.symm ▸ ha0L) huL
      · intro u hu _ huf
        have hu2 : u = a0.location := by simpa using hu
        exact absurd (hu2.symm ▸ ha0L) huf
      · intro h1v
        exact absurd h1v (by omega)
    have hfb : ((allCells m).length : Int) <
        (([a0.location] : List (Int × Int)).length : Int) +
        ((m.size.1 * m.size.2 + 1 : Nat) : Int) := by
      rw [length_allCells, List.length_singleton]
      push_cast
      omega
    have hud : dijkstraUpdate m attractors =
        breadthFill m (m.size.1 * m.size.2 + 1)
          ⟨zeroFold attractors (initValues m), [a0.location]⟩
          (attractorLocs attractors) 0 := by
      simp only [dijkstraUpdate, hA0]
    intro c hc hig hcL
    rw [hud] at hc ⊢
    exact breadthFill_localmin m (attractorLocs attractors) hld hsize
      (m.size.1 * m.size.2 + 1)
      ⟨zeroFold attractors (initValues m), [a0.location]⟩
      (attractorLocs attractors) 0 hinv hfb c hc hig hcL

/-! ## Event queue lemmas -/

theorem passEvent_silent (ls : List SimListener) (e : QEvent)
    (hresp : ∀ l ∈ ls, l.respond e = []) :
    ∀ (rest : List QEvent) (d : List (Nat × QEvent)),
      passEvent ls ⟨e :: rest, d⟩ = ⟨rest, d ++ ls.map fun l => (l.id, e)⟩ := by
  have aux : ∀ (ls2 : List SimListener), (∀ l ∈ ls2, l.respond e = []) →
      ∀ (q0 : List QEvent) (d0 : List (Nat × QEvent)),
      List.foldl
        (fun (acc : QueueState) l =>
          { queue := acc.queue ++ l.respond e,
            delivered := acc.delivered ++ [(l.id, e)] })
        ⟨q0, d0⟩ ls2 = ⟨q0, d0 ++ ls2.map fun l => (l.id, e)⟩ := by
    intro ls2 h2
    induction ls2 with
    | nil => intro q0 d0; simp
    | cons l rest2 ih =>
      intro q0 d0
      simp only [List.foldl_cons]
      rw [show ({ queue := q0 ++ l.respond e, delivered := d0 ++ [(l.id, e)] }
          : QueueState) = ⟨q0, d0 ++ [(l.id, e)]⟩ by
        rw [h2 l (List.mem_cons_self l rest2), List.append_nil]]
      rw [ih (fun x hx => h2 x (List.mem_cons_of_mem l hx))]
      simp
  intro rest d
  unfold passEvent
  exact aux ls hresp rest d

theorem drainLoop_empty (ls : List SimListener) (fuel : Nat) (st : QueueState)
    (h : st.queue = []) : drainLoop ls fuel st = st := by
  cases fuel <;> simp [drainLoop, h]

theorem drainLoop_silent (ls : List SimListener)
    (hresp : ∀ l ∈ ls, ∀ e, l.respond e = []) :
    ∀ (q : List QEvent) (fuel : Nat) (d : List (Nat × QEvent)),
      q.length ≤ fuel →
      drainLoop ls fuel ⟨q, d⟩ =
        ⟨[], d ++ q.flatMap fun e => ls.map fun l => (l.id, e)⟩ := by
  intro q
  induction q with
  | nil =>
    intro fuel d _
    rw [drainLoop_empty ls fuel _ rfl]
    simp
  | cons e rest ih =>
    intro fuel d hlen
    cases fuel with
    | zero => simp at hlen
    | succ fuel =>
      simp only [drainLoop, List.isEmpty_cons, if_false, Bool.false_eq_true]
      rw [passEvent_silent ls e (fun l hl => hresp l hl e) rest d]
      rw [ih fuel _ (by simpa using hlen)]
      simp

/-! ## Line tracing lemmas -/

theorem lineCut_eq (m : RLMap) :
    ∀ (l : List (Int × Int)) (i : Nat),
      lineCut m l (i + 1) + 1 =
        (i + 1) + (takeThrough (fun q => air_entrance_possible m q) l).length := by
  intro l
  induction l with
  | nil => intro i; simp [lineCut, takeThrough]
  | cons p rest ih =>
    intro i
    by_cases h : air_entrance_possible m p
    · simp only [lineCut, takeThrough, h, if_true]
      have := ih (i + 1)
      simp only [List.length_cons]
      omega
    · simp [lineCut, takeThrough, h]

theorem take_takeThrough {α : Type} (p : α → Bool) :
    ∀ l : List α, l.take (takeThrough p l).length = takeThrough p l := by
  intro l
  induction l with
  | nil => rfl
  | cons a rest ih =>
    by_cases h : p a
    · simp [takeThrough, h, List.take_succ_cons, ih]
    · simp [takeThrough, h]

/-- The indexed truncation loop of `get_line` computes exactly the
"prefix up to and including the first air-impassable point" of the spec's
wording. -/
theorem get_line_eq_spec (m : RLMap) (s e : Int × Int) :
    get_line m s e = specTruncatedLine m s e := by
  unfold get_line specTruncatedLine
  by_cases hse : s = e
  · subst hse
    rw [if_pos ⟨rfl, rfl⟩, if_pos rfl]
  · have h2 : ¬(s.1 = e.1 ∧ s.2 = e.2) := fun hc => hse (Prod.ext hc.1 hc.2)
    rw [if_neg h2, if_neg hse]
    cases hb : bresenhamPoints s e with
    | nil => simp
    | cons p rest =>
      simp only [List.tail_cons]
      have h1 := lineCut_eq m rest 0
      simp only [Nat.zero_add] at h1
      rw [h1, Nat.add_comm, List.take_succ_cons, take_takeThrough]

/-! ## Stable sort lemmas -/

theorem insertSorted_mem {α : Type} (key : α → Nat) (a : α) :
    ∀ (l : List α) (x : α), x ∈ insertSorted key a l ↔ x = a ∨ x ∈ l := by
  intro l
  induction l with
  | nil => intro x; simp [insertSorted]
  | cons b rest ih =>
    intro x
    simp only [insertSorted]
    by_cases h : key b ≤ key a
    · rw [if_pos h]
      simp only [List.mem_cons, ih]
      tauto
    · rw [if_neg h]
      simp only [List.mem_cons]

theorem insertSorted_pairwise {α : Type} (key : α → Nat) (a : α) :
    ∀ l : List α, l.Pairwise (fun x y => key x ≤ key y) →
      (insertSorted key a l).Pairwise (fun x y => key x ≤ key y) := by
  intro l
  induction l with
  | nil => intro _; simp [insertSorted]
  | cons b rest ih =>
    intro hp
    rw [List.pairwise_cons] at hp
    obtain ⟨hb, hrest⟩ := hp
    simp only [insertSorted]
    by_cases h : key b ≤ key a
    · rw [if_pos h, List.pairwise_cons]
      refine ⟨?_, ih hrest⟩
      intro x hx
      rcases (insertSorted_mem key a rest x).mp hx with rfl | hxr
      · exact h
      · exact hb x hxr
    · rw [if_neg h, List.pairwise_cons]
      refine ⟨?_, List.pairwise_cons.mpr ⟨hb, hrest⟩⟩
      intro x hx
      rcases List.mem_cons.mp hx with rfl | hxr
      · omega
      · exact le_trans (by omega) (hb x hxr)

theorem stableSortBy_pairwise {α : Type} (key : α → Nat) (l : List α) :
    (stableSortBy key l).Pairwise (fun x y => key x ≤ key y) := by
  have aux : ∀ (l2 acc : List α), acc.Pairwise (fun x y => key x ≤ key y) →
      (l2.foldl (fun acc a => insertSorted key a acc) acc).Pairwise
        (fun x y => key x ≤ key y) := by
    intro l2
    induction l2 with
    | nil => intro acc h; exact h
    | cons a rest ih =>
      intro acc h
      exact ih _ (insertSorted_pairwise key a acc h)
  exact aux l [] (by simp)

theorem stableSortBy_mem {α : Type} (key : α → Nat) (l : List α) (x : α) :
    x ∈ stableSortBy key l ↔ x ∈ l := by
  have aux : ∀ (l2 acc : List α),
      (x ∈ l2.foldl (fun acc a => insertSorted key a acc) acc ↔
        x ∈ acc ∨ x ∈ l2) := by
    intro l2
    induction l2 with
    | nil => intro acc; simp
    | cons a rest ih =>
      intro acc
      rw [List.foldl_cons, ih, insertSorted_mem]
      simp only [List.mem_cons]
      tauto
  unfold stableSortBy
  rw [aux l []]
  simp

/-- The shootable list is sorted by traced-line length: the nearest target
by path length comes first, ties kept in scan order. -/
theorem get_shootable_sorted (m : RLMap) (loc : Int × Int) (layers : List String)
    (distance : Int) (excl : Bool) :
    (get_shootable_in_range m loc layers distance excl).Pairwise
      (fun a b =>
        (get_line m loc a.location).length ≤ (get_line m loc b.location).length) := by
  unfold get_shootable_in_range
  rw [List.pairwise_map]
  have hscore : ∀ p ∈ stableSortBy (fun p : Ent × Nat => p.2)
      ((shootableScan m loc layers distance).filterMap (shootableScore m loc excl)),
      p.2 = (get_line m loc p.1.location).length := by
    intro p hp
    rw [stableSortBy_mem] at hp
    obtain ⟨item, _, hf⟩ := List.mem_filterMap.mp hp
    simp only [shootableScore] at hf
    split at hf
    · cases hf; rfl
    · cases hf
  have hsorted := stableSortBy_pairwise (fun p : Ent × Nat => p.2)
    ((shootableScan m loc layers distance).filterMap (shootableScore m loc excl))
  refine List.Pairwise.imp_of_mem ?_ hsorted
  intro a b ha hb hle
  rw [hscore a ha, hscore b hb] at hle
  exact hle

/-! ## Claim theorems -/

/-- C1 counterexample: in a melee collision where the defender's defense
roll 3 (a member of its `defenses` set) is greater than or equal to the
attacker's attack roll 1 (a member of its `attacks` set), the defender's
hp changes: it rises from 2 to 4, because `get_damaged` never clamps
damage at zero. -/
theorem C1_collide_counterexample :
    (1 : Int) ∈ atkFC1.attacks ∧ (3 : Int) ∈ defFC1.defenses ∧ (3 : Int) ≥ 1 ∧
    defFC1.hp = 2 ∧
    (collideMelee defenderC1 attackerC1 1 3).1.fighter.map FighterComponent.hp
      = some 4 := by
  decide

/-- C1 amended: for every melee collision between Fighter-bearing
attacker and defender, `collide` applies damage `attack_roll − defense_roll`
with no clamping at zero to the defender's hp (capped above at `max_hp`):
the hp is unchanged when the rolls are equal, and does not decrease — it
may increase — whenever the defense roll is at least the attack roll. -/
theorem C1_collide_damage (defender attacker : Ent) (df af : FighterComponent)
    (hd : defender.fighter = some df) (ha : attacker.fighter = some af)
    (a d : Int) (hma : a ∈ af.attacks) (hmd : d ∈ df.defenses)
    (hhp : df.hp ≤ df.max_hp) :
    (collideMelee defender attacker a d).1.fighter = some (get_damaged df a d)
    ∧ (collideMelee defender attacker a d).2 = true
    ∧ (get_damaged df a d).hp = min df.max_hp (df.hp - (a - d))
    ∧ (d = a → (get_damaged df a d).hp = df.hp)
    ∧ (d ≥ a → df.hp ≤ (get_damaged df a d).hp) := by
  have hval : (get_damaged df a d).hp = min df.max_hp (df.hp - (a - d)) := by
    unfold get_damaged hpSet
    split_ifs with h
    · simp only []
      omega
    · simp only []
      omega
  refine ⟨by simp [collideMelee, hd, ha], by simp [collideMelee, hd, ha],
    hval, ?_, ?_⟩
  · intro he; rw [hval]; omega
  · intro he; rw [hval]; omega

/-- C1 witness: the amended melee-damage theorem instantiated at the
concrete scenario fighters with equal rolls 3 and 3. -/
theorem C1_collide_damage_witness :
    (collideMelee defenderC1 attackerC1 3 3).1.fighter
        = some (get_damaged defFC1 3 3)
    ∧ (collideMelee defenderC1 attackerC1 3 3).2 = true
    ∧ (get_damaged defFC1 3 3).hp = min defFC1.max_hp (defFC1.hp - (3 - 3))
    ∧ (get_damaged defFC1 3 3).hp = defFC1.hp
    ∧ defFC1.hp ≤ (get_damaged defFC1 3 3).hp := by
  have h := C1_collide_damage defenderC1 attackerC1 defFC1 atkFC1 rfl rfl 3 3
    (by decide) (by decide) (by decide)
  exact ⟨h.1, h.2.1, h.2.2.1, h.2.2.2.1 rfl, h.2.2.2.2 (le_refl 3)⟩

/-- C2: after a rebuild, every attractor on a non-ignored in-bounds cell
holds the value 0 (first conjunct, all maps and attractor lists); and on
every map whose background layer has the declared dimensions and at most
1000 cells (the source initializes every cell to "1000, ie a value
guaranteed to be more than any distance on map") with every attractor on
a passable in-bounds tile, every non-sentinel non-attractor cell reached
by the breadth-first expansion holds 1 plus the minimum value among its
already-visited 8-neighbours (second conjunct; reached attractor cells
are the first conjunct's case, sentinel cells hold `None`).  On the open
3×3 grid with the single attractor at the origin, the value at `(1, 1)`
is 1, the value at `(2, 2)` is 2, and every non-attractor cell passes the
local 1-plus-minimum check concretely. -/
theorem C2_dijkstra_rebuild :
    (∀ (m : RLMap) (attractors : List Attractor) (a : Attractor),
        a ∈ attractors → inBounds m a.location →
        should_ignore m a.location = false →
        dval (dijkstraUpdate m attractors).values a.location = some 0)
    ∧ (∀ (m : RLMap) (attractors : List Attractor),
        layerDims m (m.items "bg") → m.size.1 * m.size.2 ≤ 1000 →
        (∀ a ∈ attractors, inBounds m a.location ∧
          should_ignore m a.location = false) →
        ∀ c ∈ (dijkstraUpdate m attractors).updatedNow,
          should_ignore m c = false → c ∉ attractorLocs attractors →
          localMinProp m (dijkstraUpdate m attractors) c)
    ∧ dval scenC.values (1, 1) = some 1
    ∧ dval scenC.values (2, 2) = some 2
    ∧ (cells3.all fun c => decide (c = (0, 0)) ||
        reachedLocalCheck open3 scenC.values c) = true :=
  ⟨dijkstraUpdate_attractor_zero, dijkstraUpdate_localmin,
    by decide, by decide, by decide⟩

/-- C2 witness: the two general statements instantiated at the Scenario C
map — its single attractor's cell holds 0, and the reached non-attractor
cell `(1, 1)` holds 1 plus the minimum among its visited neighbours'
values. -/
theorem C2_dijkstra_rebuild_witness :
    (dval (dijkstraUpdate open3 [⟨1, (0, 0)⟩]).values (0, 0) = some 0) ∧
      localMinProp open3 (dijkstraUpdate open3 [⟨1, (0, 0)⟩]) (1, 1) :=
  ⟨C2_dijkstra_rebuild.1 open3 [⟨1, (0, 0)⟩] ⟨1, (0, 0)⟩ (by decide) (by decide)
      (by decide),
    C2_dijkstra_rebuild.2.1 open3 [⟨1, (0, 0)⟩] (by decide) (by decide)
      (by decide) (1, 1) (by decide) (by decide) (by decide)⟩

/-- C6: the code at the claimed failing input.  A query with a negative
coordinate does not return `False`: Python's negative indexing wraps to
the opposite border, so on an all-passable 3×3 map `entrance_possible`
and `air_entrance_possible` report `True` at `(-1, 0)`, contradicting
their docstrings ("within map borders").  Queries beyond the upper bound
do raise `IndexError` and yield `False`, and neighbour enumeration guards
negatives explicitly, so only the negative side misbehaves. -/
theorem C6_negative_index_wraps :
    entrance_possible open3 (-1, 0) = true
    ∧ air_entrance_possible open3 (-1, 0) = true
    ∧ entrance_possible open3 (3, 0) = false
    ∧ get_neighbour_coordinates open3 (0, 0) = [(0, 1), (1, 0), (1, 1)]
    ∧ get_neighbour_coordinates open3 (2, 2) = [(1, 1), (1, 2), (2, 1)] := by
  decide

/-- C7: the code at the claimed failing input.  A matching `was_destroyed`
event whose actor is not currently an attractor takes the
`actor not in attractors` branch first and is appended, so the destroyed
actor ends up in the attractor set (contradicting the constructor
docstring); when the actor is present, the removal branch does fire, and
in both cases the full rebuild is triggered. -/
theorem C7_was_destroyed_adds_missing_actor :
    processGameEvent ["moved", "was_destroyed"] (fun _ _ => true) []
        ⟨"was_destroyed", ⟨1, (0, 0)⟩⟩ = ([⟨1, (0, 0)⟩], true)
    ∧ (⟨1, (0, 0)⟩ : Attractor) ∈
        (processGameEvent ["moved", "was_destroyed"] (fun _ _ => true) []
          ⟨"was_destroyed", ⟨1, (0, 0)⟩⟩).1
    ∧ processGameEvent ["moved", "was_destroyed"] (fun _ _ => true) [⟨1, (0, 0)⟩]
        ⟨"was_destroyed", ⟨1, (0, 0)⟩⟩ = ([], true) := by
  decide

/-- C8: `get_line` returns the single start point when the endpoints
coincide, and otherwise exactly the Bresenham line truncated to the
prefix up to and including the first air-impassable point after the
start — the wording of the source loop and of the spec coincide. -/
theorem C8_get_line_matches_spec (m : RLMap) (s e : Int × Int) :
    get_line m s e = specTruncatedLine m s e ∧ get_line m s s = [s] :=
  ⟨get_line_eq_spec m s e, by unfold get_line; rw [if_pos ⟨rfl, rfl⟩]⟩

/-- C10: after an update, a passable (non-ignored) in-bounds cell that the
expansion never visits and that carries no attractor keeps the finite
initialization value 1000, and `get_dijkstra_value` therefore reports the
finite weighted value `1000 * weight` for it rather than excluding it as
undefined. -/
theorem C10_unreached_cells_finite (m : RLMap) (attractors : List Attractor)
    (c : Int × Int) (hin : inBounds m c) (hig : should_ignore m c = false)
    (hun : c ∉ (dijkstraUpdate m attractors).updatedNow)
    (hattr : ∀ a ∈ attractors, c ≠ a.location) :
    dval (dijkstraUpdate m attractors).values c = some 1000
    ∧ ∀ (wt : Int) (w : AIWorld) (me : AIActor),
        w.dijkstras "PC" = (dijkstraUpdate m attractors).values →
        me.dijkstraWeights = [("PC", wt)] →
        get_dijkstra_value w me c = some (0 + 1000 * wt) := by
  have h1 := dijkstraUpdate_unreached m attractors c hin hig hun hattr
  refine ⟨h1, ?_⟩
  intro wt w me hw hme
  unfold get_dijkstra_value
  rw [hme]
  simp only [getDijkstraValueAux, hw, h1]

/-- C10 witness: on the walled 3×3 map the cell `(2, 2)` is cut off from
the attractor at the origin, keeps the value 1000, and contributes the
finite weighted value 2000 at weight 2. -/
theorem C10_unreached_cells_finite_witness :
    dval (dijkstraUpdate walled3 [⟨1, (0, 0)⟩]).values (2, 2) = some 1000
    ∧ get_dijkstra_value walledWorld walledMe (2, 2) = some (0 + 1000 * 2) := by
  have h := C10_unreached_cells_finite walled3 [⟨1, (0, 0)⟩] (2, 2)
    (by decide) (by decide) (by decide) (by decide)
  exact ⟨h.1, h.2 2 walledWorld walledMe rfl rfl⟩

/-- C9: draining an already-empty queue whose listeners stay silent on the
sentinel appends exactly one `queue_exhausted` event, delivers it to every
registered listener in registration order, and leaves the queue empty. -/
theorem C9_drain_empty_queue (ls : List SimListener) (q : List QEvent)
    (d : List (Nat × QEvent)) (fuel : Nat)
    (hq : q = []) (hresp : ∀ l ∈ ls, l.respond queueExhausted = [])
    (hfuel : 1 ≤ fuel) :
    passAllEvents ls fuel ⟨q, d⟩ =
      ⟨[], d ++ ls.map fun l => (l.id, queueExhausted)⟩ := by
  subst hq
  unfold passAllEvents
  cases fuel with
  | zero => omega
  | succ fuel =>
    show drainLoop ls (fuel + 1) ⟨[] ++ [queueExhausted], d⟩ = _
    simp only [List.nil_append, drainLoop, List.isEmpty_cons, Bool.false_eq_true,
      if_false]
    rw [passEvent_silent ls queueExhausted hresp [] d]
    exact drainLoop_empty ls fuel _ rfl

/-- C9 witness: two silent listeners on the empty queue each receive the
sentinel once, in registration order. -/
theorem C9_drain_empty_queue_witness :
    passAllEvents [⟨3, fun _ => []⟩, ⟨4, fun _ => []⟩] 1 ⟨[], []⟩ =
      ⟨[], [(3, queueExhausted), (4, queueExhausted)]⟩ :=
  C9_drain_empty_queue [⟨3, fun _ => []⟩, ⟨4, fun _ => []⟩] [] [] 1 rfl
    (by
      intro l hl
      simp only [List.mem_cons, List.not_mem_nil, or_false] at hl
      rcases hl with rfl | rfl <;> rfl)
    le_rfl

/-- C3: when the primary actor's turn reports failure, `process_turn`
logs no other actor's or construction's turn, does not invoke
`rebuild_dijkstras`, and still drains the queue, delivering the
`queue_exhausted` sentinel to every registered listener. -/
theorem C3_failed_primary_turn (primary : SimActor)
    (others constructions : List SimActor) (ls : List SimListener)
    (fuel : Nat) (st : TurnState)
    (hr : primary.result = false) (hq : st.qs.queue = [])
    (hresp : ∀ l ∈ ls, ∀ e, l.respond e = [])
    (hfuel : primary.emits.length + 1 ≤ fuel) :
    (processTurn primary others constructions ls fuel st).actedLog
      = st.actedLog ++ [primary.id]
    ∧ (processTurn primary others constructions ls fuel st).rebuilds
      = st.rebuilds
    ∧ (processTurn primary others constructions ls fuel st).qs.queue = []
    ∧ ∀ l ∈ ls, (l.id, queueExhausted) ∈
        (processTurn primary others constructions ls fuel st).qs.delivered := by
  obtain ⟨⟨q, d⟩, acted, reb⟩ := st
  simp only at hq
  subst hq
  have hpt : processTurn primary others constructions ls fuel ⟨⟨[], d⟩, acted, reb⟩
      = ⟨passAllEvents ls fuel ⟨[] ++ primary.emits, d⟩,
          acted ++ [primary.id], reb⟩ := by
    simp only [processTurn, actorMakeTurn, hr, Bool.false_eq_true, if_false]
  have hpa : passAllEvents ls fuel ⟨[] ++ primary.emits, d⟩
      = ⟨[], d ++ (primary.emits ++ [queueExhausted]).flatMap
          fun e => ls.map fun l => (l.id, e)⟩ := by
    unfold passAllEvents
    rw [show ({ queue := ([] ++ primary.emits) ++ [queueExhausted], delivered := d }
        : QueueState) = ⟨primary.emits ++ [queueExhausted], d⟩ by simp]
    exact drainLoop_silent ls hresp (primary.emits ++ [queueExhausted]) fuel d
      (by simpa using hfuel)
  rw [hpt, hpa]
  refine ⟨rfl, rfl, rfl, ?_⟩
  intro l hl
  apply List.mem_append_right
  exact List.mem_flatMap.mpr
    ⟨queueExhausted, by simp, List.mem_map.mpr ⟨l, hl, rfl⟩⟩

/-- C3 witness: a primary actor that fails while emitting one log event,
with one other actor, one construction, and one silent listener: only the
primary's turn is logged, nothing is rebuilt, the queue ends empty and
the listener got the sentinel. -/
theorem C3_failed_primary_turn_witness :
    (processTurn ⟨0, false, [⟨"log_updated"⟩]⟩ [⟨1, true, []⟩] [⟨2, true, []⟩]
        [⟨5, fun _ => []⟩] 2 ⟨⟨[], []⟩, [], 0⟩).actedLog = [] ++ [0]
    ∧ (processTurn ⟨0, false, [⟨"log_updated"⟩]⟩ [⟨1, true, []⟩] [⟨2, true, []⟩]
        [⟨5, fun _ => []⟩] 2 ⟨⟨[], []⟩, [], 0⟩).rebuilds = 0
    ∧ (processTurn ⟨0, false, [⟨"log_updated"⟩]⟩ [⟨1, true, []⟩] [⟨2, true, []⟩]
        [⟨5, fun _ => []⟩] 2 ⟨⟨[], []⟩, [], 0⟩).qs.queue = []
    ∧ (5, queueExhausted) ∈
        (processTurn ⟨0, false, [⟨"log_updated"⟩]⟩ [⟨1, true, []⟩] [⟨2, true, []⟩]
          [⟨5, fun _ => []⟩] 2 ⟨⟨[], []⟩, [], 0⟩).qs.delivered := by
  have h := C3_failed_primary_turn ⟨0, false, [⟨"log_updated"⟩]⟩ [⟨1, true, []⟩]
    [⟨2, true, []⟩] [⟨5, fun _ => []⟩] 2 ⟨⟨[], []⟩, [], 0⟩ rfl rfl
    (by
      intro l hl e
      simp only [List.mem_cons, List.not_mem_nil, or_false] at hl
      subst hl
      rfl)
    (by simp)
  exact ⟨h.1, h.2.1, h.2.2.1, h.2.2.2 ⟨5, fun _ => []⟩ (List.mem_singleton.mpr rfl)⟩

/-- C4 counterexample: the ranged AI of the priority scenario holds a
useful item (a Bottle at half HP, found at inventory index 0), yet its
chosen action is to shoot the visible enemy, not to use the item: the
shooting check precedes the item check in the source. -/
theorem C4_priority_counterexample :
    rangedMe.inventory.findIdx? (is_useful rangedMe) = some 0
    ∧ chooseRanged rangedWorld rangedMe (fun l => l.head?) = some (.shoot (3, 1))
    ∧ chooseRanged rangedWorld rangedMe (fun l => l.head?)
        ≠ some (.use_item 0) := by
  decide

/-- C4 amended: the ranged AI's priority is (1) shoot the nearest (by
traced-line length, ties in scan order) visible non-adjacent enemy when it
has ammo, (2) otherwise fall back to the melee logic, which uses the
first useful inventory item before walking or waiting — so a
ranged-capable AI with both a useful item and a target shoots first. -/
theorem C4_ranged_priority (w : AIWorld) (me : AIActor)
    (pick : List (Int × Int) → Option (Int × Int)) :
    (∀ (v : Ent) (rest : List Ent), me.fighter.ammo > 0 →
        (get_shootable_in_range w.map me.location ["actors", "constructions"] 3
          true).filter (shouldAttack me) = v :: rest →
        chooseRanged w me pick = some (.shoot v.location))
    ∧ (me.fighter.ammo = 0 → chooseRanged w me pick = chooseMelee w me pick)
    ∧ ((get_shootable_in_range w.map me.location ["actors", "constructions"] 3
          true).filter (shouldAttack me) = [] →
        chooseRanged w me pick = chooseMelee w me pick)
    ∧ (∀ i, me.inventory.findIdx? (is_useful me) = some i →
        chooseMelee w me pick = some (.use_item i))
    ∧ (get_shootable_in_range w.map me.location ["actors", "constructions"] 3
        true).Pairwise (fun a b =>
          (get_line w.map me.location a.location).length
            ≤ (get_line w.map me.location b.location).length) := by
  refine ⟨?_, ?_, ?_, ?_, get_shootable_sorted w.map me.location _ 3 true⟩
  · intro v rest hammo hfil
    simp only [chooseRanged]
    rw [if_pos hammo, hfil]
  · intro h0
    simp only [chooseRanged]
    rw [if_neg (by omega)]
  · intro hfil
    simp only [chooseRanged]
    by_cases hammo : me.fighter.ammo > 0
    · rw [if_pos hammo, hfil]
    · rw [if_neg hammo]
  · intro i hi
    simp only [chooseMelee]
    rw [hi]

/-- C4 witness: the amended priority instantiated at the concrete
scenario: ammo is positive and the enemy is the sole shootable, so the
chosen command is the shot at its location. -/
theorem C4_ranged_priority_witness :
    chooseRanged rangedWorld rangedMe (fun l => l.head?)
      = some (.shoot pcTarget.location) :=
  (C4_ranged_priority rangedWorld rangedMe (fun l => l.head?)).1 pcTarget []
    (by decide) (by decide)

/-- C5 counterexample: shooting at the bunker's cell fires (the traced
line ends there) and a Fighter-bearing occupant is present in that
column, yet no fighter is damaged: the topmost occupant is the
fighterless crate, and the source only examines `column[-1]`. -/
theorem C5_shoot_counterexample :
    (shoot shootMap shooterF (0, 0) (2, 0) 0).fired = true
    ∧ (get_line shootMap (0, 0) (2, 0)).getLast? = some (2, 0)
    ∧ (((get_column? shootMap (2, 0)).getD []).any fun e => e.fighter.isSome)
        = true
    ∧ (shoot shootMap shooterF (0, 0) (2, 0) 0).victim = some crate
    ∧ (shoot shootMap shooterF (0, 0) (2, 0) 0).victimFighterAfter = none := by
  decide

/-- C5 amended: with ammo, `shoot` consumes exactly one round, traces the
line, picks the topmost occupant of the line's terminal cell as victim
and damages it exactly when that topmost occupant bears a Fighter (lower
occupants are never examined), returning `True`; with no ammo it returns
`False`, leaves the fighter untouched, damages nothing and logs the
out-of-ammo message. -/
theorem C5_shoot_behaviour (m : RLMap) (f : FighterComponent)
    (fromLoc target : Int × Int) (d : Int) :
    (f.ammo > 0 →
      (shoot m f fromLoc target d).fired = true
      ∧ (shoot m f fromLoc target d).shooterFighter.ammo = f.ammo - 1
      ∧ (shoot m f fromLoc target d).victim =
          ((get_column? m ((get_line m fromLoc target).getLast?.getD
            fromLoc)).getD []).getLast?
      ∧ (shoot m f fromLoc target d).victimFighterAfter =
          ((((get_column? m ((get_line m fromLoc target).getLast?.getD
            fromLoc)).getD []).getLast?.bind Ent.fighter).map
            fun vf => get_damaged vf f.rangedAttackValue d))
    ∧ (f.ammo = 0 →
      (shoot m f fromLoc target d).fired = false
      ∧ (shoot m f fromLoc target d).shooterFighter = f
      ∧ (shoot m f fromLoc target d).victim = none
      ∧ (shoot m f fromLoc target d).victimFighterAfter = none
      ∧ (shoot m f fromLoc target d).loggedOutOfAmmo = true) := by
  constructor
  · intro hammo
    simp only [shoot]
    rw [if_pos hammo]
    cases hv : ((get_column? m ((get_line m fromLoc target).getLast?.getD
        fromLoc)).getD []).getLast? with
    | none => simp [hv]
    | some v =>
      cases hvf : v.fighter with
      | none => simp [hv, hvf]
      | some vf => simp [hv, hvf]
  · intro h0
    have hna : ¬ f.ammo > 0 := by omega
    simp only [shoot]
    rw [if_neg hna]
    exact ⟨rfl, rfl, rfl, rfl, rfl⟩

/-- C5 witness: the shot of the concrete scenario, with two rounds of
ammo: it fires, one round is spent, and the victim/damage fields match
the topmost-occupant rule. -/
theorem C5_shoot_behaviour_witness :
    (shoot shootMap shooterF (0, 0) (2, 0) 0).fired = true
    ∧ (shoot shootMap shooterF (0, 0) (2, 0) 0).shooterFighter.ammo
        = shooterF.ammo - 1
    ∧ (shoot shootMap shooterF (0, 0) (2, 0) 0).victim =
        ((get_column? shootMap ((get_line shootMap (0, 0) (2, 0)).getLast?.getD
          (0, 0))).getD []).getLast?
    ∧ (shoot shootMap shooterF (0, 0) (2, 0) 0).victimFighterAfter =
        ((((get_column? shootMap ((get_line shootMap (0, 0)
          (2, 0)).getLast?.getD (0, 0))).getD []).getLast?.bind Ent.fighter).map
          fun vf => get_damaged vf shooterF.rangedAttackValue 0) :=
  (C5_shoot_behaviour shootMap shooterF (0, 0) (2, 0) 0).1 (by decide)

end Camp
